import Mathlib

/-!
# png2curcuitmaker: bilinear resampler, scale-factor planner and text encoder

A shallow embedding of `src/png_reader.cpp`.

* C++ `float` is IEEE-754 binary32.  A finite value is the rational it denotes; every
  arithmetic operation computes the exact rational result and rounds it to the nearest
  binary32 value, ties to even (`F32.round`); no operation is fused and none is carried out
  in a wider format.  Infinities and NaN are separate constructors.
  The sign of zero is not recorded: the only divisors in the program are converted from
  `int`, so a negative zero never reaches a place where it could be observed.
* C++ `int` is a 32-bit two's complement integer.  Results of `int` arithmetic are reduced
  with `wrapInt` (signed overflow wraps, as it does on the usual targets).
* A conversion of a `float` that does not fit the destination integer type, a read or a
  write outside a row buffer, and an allocation of a negative number of rows have no
  defined result: the embedded functions return `none` there.
-/

namespace Png2Cm

/-! ## binary32 arithmetic -/

/-- Loop of `natLog2`: `fuel` bounds the number of halvings. -/
def log2Loop : Nat → Nat → Nat
  | 0, _ => 0
  | fuel + 1, n => if n < 2 then 0 else log2Loop fuel (n / 2) + 1

/-- Position of the highest set bit of `n` (`0` for `n = 0`). -/
def natLog2 (n : Nat) : Nat := log2Loop n n

/-- The rational `2 ^ e` for an integer exponent. -/
def pow2 (e : Int) : ℚ :=
  if 0 ≤ e then ((2 ^ e.toNat : Nat) : ℚ) else 1 / ((2 ^ (-e).toNat : Nat) : ℚ)

/-- The binade of a nonzero rational: the integer `e` with `2 ^ e ≤ |q| < 2 ^ (e + 1)`. -/
def binade (q : ℚ) : Int :=
  let a : Int := natLog2 q.num.natAbs
  let b : Int := natLog2 q.den
  if pow2 (a - b) ≤ |q| then a - b else a - b - 1

/-- Nearest integer, ties to the even one. -/
def roundHalfEven (t : ℚ) : Int :=
  let f := ⌊t⌋
  let r := t - f
  if r < 1 / 2 then f else if 1 / 2 < r then f + 1 else if f % 2 = 0 then f else f + 1

/-- Exponent of the unit in the last place of the binary32 format at `q`
(24 significant bits, smallest normal exponent `-126`). -/
def ulpExp (q : ℚ) : Int := max (binade q) (-126) - 23

/-- Rounding to the binary32 grid with unbounded exponent range upwards. -/
def roundQ (q : ℚ) : ℚ :=
  if q = 0 then 0 else (roundHalfEven (q / pow2 (ulpExp q)) : ℚ) * pow2 (ulpExp q)

/-- Bit-by-bit integer square root: `r` is the root found so far, a multiple of `2 ^ k`. -/
def natSqrtLoop : Nat → Nat → Nat → Nat
  | 0, _, r => r
  | k + 1, n, r => if (r + 2 ^ k) * (r + 2 ^ k) ≤ n then natSqrtLoop k n (r + 2 ^ k)
      else natSqrtLoop k n r

/-- Integer square root (the floor of the square root). -/
def natSqrt (n : Nat) : Nat := natSqrtLoop (natLog2 n / 2 + 1) n 0

/-- The correctly rounded binary32 square root of a positive rational: the root lies in the
binade `⌊binade q / 2⌋`, so the significand is the square root of `q / 4 ^ u` rounded to
the nearest integer (ties to even), `u` being the exponent of the unit in the last place. -/
def sqrtQ (q : ℚ) : ℚ :=
  if q ≤ 0 then 0 else
    let u : Int := binade q / 2 - 23
    let t : ℚ := q / pow2 (2 * u)
    let m : Nat := natSqrt ⌊t⌋.toNat
    let mid : ℚ := ((m : ℚ) + 1 / 2) * ((m : ℚ) + 1 / 2)
    let r : Nat := if t < mid then m else if mid < t then m + 1
      else if m % 2 = 0 then m else m + 1
    (r : ℚ) * pow2 u

/-- Truncation toward zero. -/
def truncQ (q : ℚ) : Int := if 0 ≤ q then ⌊q⌋ else -⌊-q⌋

/-- A C++ `float`. -/
inductive F32 where
  | fin (q : ℚ)
  | inf (neg : Bool)
  | nan
  deriving DecidableEq

namespace F32

/-- Round an exact result to binary32; magnitudes that round to `2 ^ 128` or more overflow. -/
def round (q : ℚ) : F32 :=
  if pow2 128 ≤ |roundQ q| then inf (decide (q < 0)) else fin (roundQ q)

/-- Conversion `static_cast<float>(i)` of an `int` (also the implicit one). -/
def ofInt (i : Int) : F32 := round (i : ℚ)

/-- Float addition. -/
def add : F32 → F32 → F32
  | nan, _ => nan
  | _, nan => nan
  | inf a, inf b => if a = b then inf a else nan
  | inf a, fin _ => inf a
  | fin _, inf b => inf b
  | fin a, fin b => round (a + b)

/-- Float negation. -/
def neg : F32 → F32
  | nan => nan
  | inf a => inf (!a)
  | fin a => fin (-a)

/-- Float subtraction. -/
def sub (a b : F32) : F32 := add a (neg b)

/-- Float multiplication. -/
def mul : F32 → F32 → F32
  | nan, _ => nan
  | _, nan => nan
  | inf a, inf b => inf (xor a b)
  | inf a, fin q => if q = 0 then nan else inf (xor a (decide (q < 0)))
  | fin q, inf b => if q = 0 then nan else inf (xor (decide (q < 0)) b)
  | fin a, fin b => round (a * b)

/-- Float division (a zero divisor is `+0`). -/
def div : F32 → F32 → F32
  | nan, _ => nan
  | _, nan => nan
  | inf _, inf _ => nan
  | inf a, fin q => inf (xor a (decide (q < 0)))
  | fin _, inf _ => fin 0
  | fin a, fin b =>
    if b = 0 then (if a = 0 then nan else inf (decide (a < 0))) else round (a / b)

/-- The function `std::sqrt` on `float`. -/
def sqrt : F32 → F32
  | nan => nan
  | inf neg => if neg then nan else inf false
  | fin q => if q < 0 then nan else fin (sqrtQ q)

/-- The comparison `a > b` (false when either side is NaN). -/
def gt : F32 → F32 → Bool
  | fin a, fin b => decide (b < a)
  | inf a, fin _ => !a
  | fin _, inf b => b
  | inf a, inf b => !a && b
  | _, _ => false

/-- Conversion `static_cast<int>(f)`: truncation toward zero, undefined outside `int`. -/
def toInt : F32 → Option Int
  | fin q => if -2147483648 ≤ truncQ q ∧ truncQ q ≤ 2147483647 then some (truncQ q) else none
  | _ => none

/-- Conversion `static_cast<png_byte>(f)`: truncation toward zero, undefined outside
`0..255`. -/
def toByte : F32 → Option Nat
  | fin q => if 0 ≤ truncQ q ∧ truncQ q ≤ 255 then some (truncQ q).toNat else none
  | _ => none

end F32

/-- Reduction of an `int` result to 32-bit two's complement. -/
def wrapInt (i : Int) : Int := (i + 2147483648) % 4294967296 - 2147483648

/-! ## Row buffers -/

/-- A `std::vector<png_bytep>`: `rows` row pointers, each to `rowBytes` bytes. -/
structure Buffer where
  rows : Nat
  rowBytes : Nat
  data : Nat → Nat → Nat

namespace Buffer

/-- The read `buf[y][i]`. -/
def get (b : Buffer) (y i : Int) : Option Nat :=
  if 0 ≤ y ∧ y < b.rows ∧ 0 ≤ i ∧ i < b.rowBytes then some (b.data y.toNat i.toNat) else none

/-- The write `buf[y][i] = v`. -/
def set (b : Buffer) (y i : Int) (v : Nat) : Option Buffer :=
  if 0 ≤ y ∧ y < b.rows ∧ 0 ≤ i ∧ i < b.rowBytes then
    some { b with data := fun y' i' => if y' = y.toNat ∧ i' = i.toNat then v else b.data y' i' }
  else none

end Buffer

/-- A counted loop `for (int i = 0; i < n; i++)` over the index values in the list, in a
computation that may be undefined. -/
def forLoop {σ : Type} (body : Int → σ → Option σ) : List Nat → σ → Option σ
  | [], s => some s
  | i :: rest, s => (body (i : Int) s).bind (forLoop body rest)

/-! ## `resize_image` (lines 9-32) -/

/-- State of `resize_image`: the output rows, and counters of the float divisions
evaluated, source bytes read and output bytes written so far. -/
structure ResizeState where
  output : Buffer
  divisions : Nat
  reads : Nat
  writes : Nat

/-- Lines 13-14: `x * (static_cast<float>(old) / new)`. -/
def src_pos (x old new : Int) : F32 :=
  F32.mul (F32.ofInt x) (F32.div (F32.ofInt old) (F32.ofInt new))

/-- Lines 16-19: `x0 = static_cast<int>(src)` and `x1 = std::min(x0 + 1, old - 1)`. -/
def sample_indices (x old new : Int) : Option (Int × Int) :=
  (F32.toInt (src_pos x old new)).map fun x0 => (x0, min (wrapInt (x0 + 1)) (wrapInt (old - 1)))

/-- Lines 21-22: `weight = src - x0`. -/
def sample_weight (x old new : Int) : Option F32 :=
  (F32.toInt (src_pos x old new)).map fun x0 => F32.sub (src_pos x old new) (F32.ofInt x0)

/-- Lines 26-28 before the conversion to a byte: the horizontal blends of the top pair
`a b` and the bottom pair `c d`, then the vertical blend. -/
def bilinear (x_weight y_weight : F32) (a b c d : Nat) : F32 :=
  let top := F32.add (F32.mul (F32.sub (F32.ofInt 1) x_weight) (F32.ofInt a))
    (F32.mul x_weight (F32.ofInt b))
  let bottom := F32.add (F32.mul (F32.sub (F32.ofInt 1) x_weight) (F32.ofInt c))
    (F32.mul x_weight (F32.ofInt d))
  F32.add (F32.mul (F32.sub (F32.ofInt 1) y_weight) top) (F32.mul y_weight bottom)

/-- The byte offset `x * 3 + c`. -/
def offset (x c : Int) : Int := wrapInt (wrapInt (x * 3) + c)

/-- Lines 16-19 and the reads of lines 26-27: the four neighbour samples
`input[y0][x0 * 3 + c]`, `input[y0][x1 * 3 + c]`, `input[y1][x0 * 3 + c]`,
`input[y1][x1 * 3 + c]`. -/
def neighbours (input : Buffer) (old_width old_height new_width new_height : Int)
    (y x c : Int) : Option (Nat × Nat × Nat × Nat) := do
  let (x0, x1) ← sample_indices x old_width new_width
  let (y0, y1) ← sample_indices y old_height new_height
  let a ← input.get y0 (offset x0 c)
  let b ← input.get y0 (offset x1 c)
  let c' ← input.get y1 (offset x0 c)
  let d ← input.get y1 (offset x1 c)
  some (a, b, c', d)

/-- Lines 13-28 for one channel, before the conversion to a byte: the blended value. -/
def resize_blend (input : Buffer) (old_width old_height new_width new_height : Int)
    (y x c : Int) : Option F32 := do
  let x_weight ← sample_weight x old_width new_width
  let y_weight ← sample_weight y old_height new_height
  let (a, b, c', d) ← neighbours input old_width old_height new_width new_height y x c
  some (bilinear x_weight y_weight a b c' d)

/-- Lines 13-28 for one channel: the byte stored at `output[y][x * 3 + c]`. -/
def resize_value (input : Buffer) (old_width old_height new_width new_height : Int)
    (y x c : Int) : Option Nat :=
  (resize_blend input old_width old_height new_width new_height y x c).bind F32.toByte

/-- Lines 24-29, one iteration of the channel loop. -/
def resize_channel (input : Buffer) (old_width old_height new_width new_height : Int)
    (y x : Int) (c : Int) (st : ResizeState) : Option ResizeState := do
  let v ← resize_value input old_width old_height new_width new_height y x c
  let out ← st.output.set y (offset x c) v
  some { st with output := out, reads := st.reads + 4, writes := st.writes + 1 }

/-- Lines 11-30, one iteration of the column loop: the two divisions of lines 13-14, then
the channel loop. -/
def resize_pixel (input : Buffer) (old_width old_height new_width new_height : Int)
    (y : Int) (x : Int) (st : ResizeState) : Option ResizeState :=
  forLoop (resize_channel input old_width old_height new_width new_height y x)
    (List.range 3) { st with divisions := st.divisions + 2 }

/-- Lines 10-31, one iteration of the row loop. -/
def resize_row (input : Buffer) (old_width old_height new_width new_height : Int)
    (y : Int) (st : ResizeState) : Option ResizeState :=
  forLoop (resize_pixel input old_width old_height new_width new_height y)
    (List.range new_width.toNat) st

/-- The function `resize_image`. -/
def resize_image (input : Buffer) (st : ResizeState)
    (old_width old_height new_width new_height : Int) : Option ResizeState :=
  forLoop (resize_row input old_width old_height new_width new_height)
    (List.range new_height.toNat) st

/-! ## Scale-factor planning (lines 34-48 and 113-130) -/

/-- The constant `MAX_OUTPUT_CHARS`. -/
def MAX_OUTPUT_CHARS : Int := 190000

/-- The function `calculate_max_scale_factor`. -/
def calculate_max_scale_factor (width height : Int) : F32 :=
  let chars_per_pixel : Int := 25
  let max_pixels : Int := MAX_OUTPUT_CHARS / chars_per_pixel
  let margin : F32 := F32.round (95 / 100)
  F32.mul (F32.sqrt (F32.div (F32.ofInt max_pixels) (F32.ofInt (wrapInt (width * height)))))
    margin

/-- Lines 45-46 and 129-130: `static_cast<int>(dim * scale_factor)`. -/
def scaled_dim (dim : Int) (scale_factor : F32) : Option Int :=
  F32.toInt (F32.mul (F32.ofInt dim) scale_factor)

/-- The function `estimate_output_size`. -/
def estimate_output_size (width height : Int) (scale_factor : F32) : Option Int := do
  let new_width ← scaled_dim width scale_factor
  let new_height ← scaled_dim height scale_factor
  some (wrapInt (wrapInt (new_width * new_height) * 25))

/-- Lines 114-119: the closed-form factor clamped to `1.0`. -/
def clamped_scale_factor (width height : Int) : F32 :=
  let scale_factor := calculate_max_scale_factor width height
  if F32.gt scale_factor (F32.fin 1) then F32.fin 1 else scale_factor

/-- Lines 114-126: the scale factor the pipeline uses. -/
def plan_scale_factor (width height : Int) : Option F32 := do
  let scale_factor := clamped_scale_factor width height
  let estimated_size ← estimate_output_size width height scale_factor
  if estimated_size > MAX_OUTPUT_CHARS then
    some (F32.mul scale_factor
      (F32.sqrt (F32.div (F32.ofInt MAX_OUTPUT_CHARS) (F32.ofInt estimated_size))))
  else some scale_factor

/-! ## Encoder (lines 154-169) -/

/-- Lines 158-166, one iteration of the column loop (`x = 3 * j`): the record and, unless it
is the last one, the separator. -/
def encode_pixel (resized : Buffer) (new_width new_height : Int) (y : Int) (j : Int)
    (out : String) : Option String := do
  let x : Int := 3 * j
  let r ← resized.get y x
  let g ← resized.get y (x + 1)
  let b ← resized.get y (x + 2)
  let out := out ++ "14,0,0," ++ toString (wrapInt (wrapInt (new_height - 1) - y)) ++ ","
    ++ toString (x / 3) ++ "," ++ toString r ++ "+" ++ toString g ++ "+" ++ toString b
    ++ "+2+0"
  if ¬ (y = wrapInt (new_height - 1) ∧ x = wrapInt (wrapInt (new_width - 1) * 3)) then
    some (out ++ ";")
  else some out

/-- Lines 157-167: the column loop `for (int x = 0; x < new_width * 3; x += 3)`, which runs
over `x = 0, 3, 6, ...` below the bound. -/
def encode_row (resized : Buffer) (new_width new_height : Int) (y : Int) (out : String) :
    Option String :=
  forLoop (encode_pixel resized new_width new_height y)
    (List.range (((wrapInt (new_width * 3)).toNat + 2) / 3)) out

/-- Lines 155-169: the text written to the output file. -/
def encode (resized : Buffer) (new_width new_height : Int) : Option String :=
  (forLoop (encode_row resized new_width new_height) (List.range new_height.toNat)
    ("Image Data (RGB):" ++ "\n")).map fun out => out ++ "???"

/-! ## The pipeline (lines 113-169 of `read_png_file`) -/

/-- The function `read_png_file` from the decoded rows on: plan the factor, compute the
target size, allocate the target rows (`heap` is the indeterminate content of fresh
memory), resample, encode.  The result is the content of the output file. -/
def read_png_file (row_pointers : Buffer) (width height : Int) (heap : Nat → Nat → Nat) :
    Option String := do
  let scale_factor ← plan_scale_factor width height
  let new_width ← scaled_dim width scale_factor
  let new_height ← scaled_dim height scale_factor
  if new_height < 0 then none
  else
    let resized : Buffer := ⟨new_height.toNat, (wrapInt (new_width * 3)).toNat, heap⟩
    let st ← resize_image row_pointers ⟨resized, 0, 0, 0⟩ width height new_width new_height
    encode st.output new_width new_height

/-! ## Reference formulas of the specification -/

/-- The four-weight blend of the specification, in exact arithmetic:
`(1-wx)(1-wy)*a + wx(1-wy)*b + (1-wx)wy*c + wx*wy*d`. -/
def blend4 (wx wy a b c d : ℚ) : ℚ :=
  (1 - wx) * (1 - wy) * a + wx * (1 - wy) * b + (1 - wx) * wy * c + wx * wy * d

/-- The formula of the specification for one channel from given source coordinates:
`x0 = floor(srcX)`, `x1 = min(x0 + 1, W - 1)`, `wx = srcX - x0` (likewise for `y`), the
four-weight blend of the four samples `S(x0,y0)`, `S(x1,y0)`, `S(x0,y1)`, `S(x1,y1)`,
truncated; `S(x,y)` reads byte `x * 3 + c` of row `y`. -/
def reference_from (input : Buffer) (W H : Int) (srcX srcY : ℚ) (c : Int) : Option Int := do
  let x0 : Int := ⌊srcX⌋
  let y0 : Int := ⌊srcY⌋
  let x1 : Int := min (x0 + 1) (W - 1)
  let y1 : Int := min (y0 + 1) (H - 1)
  let a ← input.get y0 (x0 * 3 + c)
  let b ← input.get y0 (x1 * 3 + c)
  let c' ← input.get y1 (x0 * 3 + c)
  let d ← input.get y1 (x1 * 3 + c)
  some ⌊blend4 (srcX - x0) (srcY - y0) a b c' d⌋

/-- The reference value of the specification for one channel of one output pixel, in exact
arithmetic: `srcX = x * W / W'`, `srcY = y * H / H'`, then `reference_from`. -/
def reference_value (input : Buffer) (W H W' H' : Int) (y x c : Int) : Option Int :=
  reference_from input W H ((x : ℚ) * (W : ℚ) / (W' : ℚ)) ((y : ℚ) * (H : ℚ) / (H' : ℚ)) c

/-- The rational a finite float denotes. -/
def F32.toRat : F32 → Option ℚ
  | F32.fin q => some q
  | _ => none

/-- The reference value with the source coordinates taken in binary32 as line 13-14 write
them, `srcX = x * (W / W')` and `srcY = y * (H / H')`, and everything after that
(`reference_from`) in exact arithmetic. -/
def reference_value_f32 (input : Buffer) (W H W' H' : Int) (y x c : Int) : Option Int := do
  let srcX ← F32.toRat (F32.mul (F32.ofInt x) (F32.div (F32.ofInt W) (F32.ofInt W')))
  let srcY ← F32.toRat (F32.mul (F32.ofInt y) (F32.div (F32.ofInt H) (F32.ofInt H')))
  reference_from input W H srcX srcY c

/-- The text of the specification for a grid of `w` by `h` pixels: the header line, the
records in the order `y = 0..h-1`, `x = 0..w-1` joined by `;`, and the terminator. -/
def encode_spec (px : Nat → Nat → Nat → Nat) (w h : Nat) : String :=
  "Image Data (RGB):" ++ "\n" ++
    String.intercalate ";" ((List.range h).flatMap fun y => (List.range w).map fun x =>
      "14,0,0," ++ toString (h - 1 - y) ++ "," ++ toString x ++ "," ++ toString (px y x 0)
        ++ "+" ++ toString (px y x 1) ++ "+" ++ toString (px y x 2) ++ "+2+0")
    ++ "???"

/-! ## Auxiliary definitions of the proofs -/

/-- Invariant of the loops of `resize_image`: the buffer keeps its shape, the cells of the
rows before `y` hold their final values, as do the pixels before `x` of row `y` and the
channels before `c` of pixel `x`. -/
def ResizeInv (nw : Nat) (v : Nat → Nat → Nat → Nat) (R B : Nat) (y x c : Nat)
    (st : ResizeState) : Prop :=
  st.output.rows = R ∧ st.output.rowBytes = B ∧
  (∀ y2 x2 c2, y2 < y → x2 < nw → c2 < 3 → st.output.data y2 (3 * x2 + c2) = v y2 x2 c2) ∧
  (∀ x2 c2, x2 < x → c2 < 3 → st.output.data y (3 * x2 + c2) = v y x2 c2) ∧
  (∀ c2, c2 < c → st.output.data y (3 * x + c2) = v y x c2)

/-- Invariant of the loops of `resize_image` for a run that finishes: every cell written so
far holds the value lines 13-28 compute for it. -/
def ResizePost (input : Buffer) (ow oh : Int) (nw nh : Nat) (y x c : Nat)
    (st : ResizeState) : Prop :=
  (∀ y2 x2 c2 : Nat, y2 < y → x2 < nw → c2 < 3 →
    resize_value input ow oh nw nh y2 x2 c2 = some (st.output.data y2 (3 * x2 + c2))) ∧
  (∀ x2 c2 : Nat, x2 < x → c2 < 3 →
    resize_value input ow oh nw nh y x2 c2 = some (st.output.data y (3 * x2 + c2))) ∧
  (∀ c2 : Nat, c2 < c →
    resize_value input ow oh nw nh y x c2 = some (st.output.data y (3 * x + c2)))

/-- The record of the pixel in column `x` of grid row `y`. -/
def record (px : Nat → Nat → Nat → Nat) (h y x : Nat) : String :=
  "14,0,0," ++ toString (h - 1 - y) ++ "," ++ toString x ++ "," ++ toString (px y x 0)
    ++ "+" ++ toString (px y x 1) ++ "+" ++ toString (px y x 2) ++ "+2+0"

/-- The records of the grid rows before `y`. -/
def recordsUpTo (px : Nat → Nat → Nat → Nat) (w h y : Nat) : List String :=
  (List.range y).flatMap fun y => (List.range w).map fun x => record px h y x

/-- The text written once the records in `l` are out: after the first and before the last
record a separator has been written too. -/
def written (n : Nat) (l : List String) : String :=
  "Image Data (RGB):" ++ "\n" ++ String.intercalate ";" l
    ++ (if l.length = 0 ∨ l.length = n then "" else ";")

/-! ## Sample inputs -/

/-- A `w` by `h` image with every byte `255`. -/
def white (w h : Nat) : Buffer := ⟨h, 3 * w, fun _ _ => 255⟩

/-- A one-row gray image with the given levels, left to right. -/
def gray_row (levels : List Nat) : Buffer :=
  ⟨1, 3 * levels.length, fun _ i => min (levels.getD (i / 3) 0) 255⟩

/-- A one-row image of `16777218` pixels: the last pixel white, the others black. -/
def wide_row : Buffer := ⟨1, 50331654, fun _ i => if i / 3 = 16777217 then 255 else 0⟩

/-- A one-row image of `16777216` pixels: pixel `11184811` white, the others black. -/
def wide_src : Buffer := ⟨1, 50331648, fun _ i => if i / 3 = 11184811 then 255 else 0⟩

/-- A 2 by 2 image with distinct bytes: byte `i` of row `y` is `10 * y + i`. -/
def sample_grid : Buffer := ⟨2, 6, fun y i => (10 * y + i) % 256⟩

/-- A fresh state of `resize_image` over the given output rows. -/
def ResizeState.init (output : Buffer) : ResizeState := ⟨output, 0, 0, 0⟩

/-! ## Logarithm and binade -/

theorem log2Loop_spec : ∀ (fuel n : Nat), 0 < n → n ≤ fuel →
    2 ^ log2Loop fuel n ≤ n ∧ n < 2 ^ (log2Loop fuel n + 1) := by
  intro fuel
  induction fuel with
  | zero => intro n h0 h1; omega
  | succ f ih =>
    intro n h0 h1
    unfold log2Loop
    by_cases h2 : n < 2
    · simp only [h2, if_true]
      constructor
      · simpa using h0
      · simpa using h2
    · simp only [h2, if_false]
      have h3 : 0 < n / 2 := by omega
      have h4 : n / 2 ≤ f := by omega
      obtain ⟨ha, hb⟩ := ih (n / 2) h3 h4
      rw [pow_succ, pow_succ]
      constructor <;> omega

theorem natLog2_spec (n : Nat) (h : 0 < n) :
    2 ^ natLog2 n ≤ n ∧ n < 2 ^ (natLog2 n + 1) :=
  log2Loop_spec n n h le_rfl

theorem pow2_eq (e : Int) : pow2 e = (2 : ℚ) ^ e := by
  unfold pow2
  split
  · next h =>
    obtain ⟨n, rfl⟩ := Int.eq_ofNat_of_zero_le h
    simp
  · next h =>
    obtain ⟨n, hn⟩ := Int.eq_ofNat_of_zero_le (show 0 ≤ -e by omega)
    have he : e = -(n : Int) := by omega
    subst he
    simp

theorem pow2_pos (e : Int) : 0 < pow2 e := by
  rw [pow2_eq]; positivity

theorem abs_eq_natAbs_div (q : ℚ) : |q| = (q.num.natAbs : ℚ) / (q.den : ℚ) := by
  have h1 : (q.num : ℚ) / (q.den : ℚ) = q := Rat.num_div_den q
  have h2 : (0 : ℚ) < (q.den : ℚ) := by exact_mod_cast q.den_pos
  conv_lhs => rw [← h1]
  rw [abs_div, abs_of_pos h2]
  rw [Nat.cast_natAbs, Int.cast_abs]

theorem binade_spec (q : ℚ) (hq : q ≠ 0) :
    (2 : ℚ) ^ binade q ≤ |q| ∧ |q| < (2 : ℚ) ^ (binade q + 1) := by
  have hn : 0 < q.num.natAbs := Int.natAbs_pos.mpr (Rat.num_ne_zero.mpr hq)
  obtain ⟨ha1, ha2⟩ := natLog2_spec _ hn
  obtain ⟨hb1, hb2⟩ := natLog2_spec _ q.den_pos
  have hd : (0 : ℚ) < (q.den : ℚ) := by exact_mod_cast q.den_pos
  have habs := abs_eq_natAbs_div q
  have ha1' : (2 : ℚ) ^ (natLog2 q.num.natAbs : Int) ≤ (q.num.natAbs : ℚ) := by
    rw [zpow_natCast]; exact_mod_cast ha1
  have ha2' : (q.num.natAbs : ℚ) < (2 : ℚ) ^ ((natLog2 q.num.natAbs : Int) + 1) := by
    have : ((natLog2 q.num.natAbs : Int) + 1) = ((natLog2 q.num.natAbs + 1 : Nat) : Int) := by
      push_cast; ring
    rw [this, zpow_natCast]; exact_mod_cast ha2
  have hb1' : (2 : ℚ) ^ (natLog2 q.den : Int) ≤ (q.den : ℚ) := by
    rw [zpow_natCast]; exact_mod_cast hb1
  have hb2' : (q.den : ℚ) < (2 : ℚ) ^ ((natLog2 q.den : Int) + 1) := by
    have : ((natLog2 q.den : Int) + 1) = ((natLog2 q.den + 1 : Nat) : Int) := by
      push_cast; ring
    rw [this, zpow_natCast]; exact_mod_cast hb2
  set a : Int := (natLog2 q.num.natAbs : Int) with ha
  set b : Int := (natLog2 q.den : Int) with hb
  have h2 : (0 : ℚ) < 2 := by norm_num
  have hub : |q| < (2 : ℚ) ^ (a - b + 1) := by
    rw [habs, div_lt_iff₀ hd]
    calc (q.num.natAbs : ℚ) < (2 : ℚ) ^ (a + 1) := ha2'
      _ = (2 : ℚ) ^ (a - b + 1) * (2 : ℚ) ^ b := by
          rw [← zpow_add₀ (by norm_num : (2 : ℚ) ≠ 0)]; congr 1; ring
      _ ≤ (2 : ℚ) ^ (a - b + 1) * (q.den : ℚ) := by
          apply mul_le_mul_of_nonneg_left hb1'; positivity
  have hlb : (2 : ℚ) ^ (a - b - 1) ≤ |q| := by
    rw [habs, le_div_iff₀ hd]
    calc (2 : ℚ) ^ (a - b - 1) * (q.den : ℚ) ≤ (2 : ℚ) ^ (a - b - 1) * (2 : ℚ) ^ (b + 1) := by
          apply mul_le_mul_of_nonneg_left hb2'.le; positivity
      _ = (2 : ℚ) ^ a := by
          rw [← zpow_add₀ (by norm_num : (2 : ℚ) ≠ 0)]; congr 1; ring
      _ ≤ (q.num.natAbs : ℚ) := ha1'
  unfold binade
  simp only [← ha, ← hb, pow2_eq]
  by_cases hc : (2 : ℚ) ^ (a - b) ≤ |q|
  · rw [if_pos hc]
    exact ⟨hc, hub⟩
  · rw [if_neg hc]
    refine ⟨hlb, ?_⟩
    have : a - b - 1 + 1 = a - b := by ring
    rw [this]
    exact lt_of_not_le hc

/-! ## Rounding -/

theorem roundHalfEven_floor_le (t : ℚ) : ⌊t⌋ ≤ roundHalfEven t := by
  unfold roundHalfEven
  simp only []
  split_ifs <;> omega

theorem roundHalfEven_le_floor (t : ℚ) : roundHalfEven t ≤ ⌊t⌋ + 1 := by
  unfold roundHalfEven
  simp only []
  split_ifs <;> omega

theorem roundHalfEven_err (t : ℚ) : |(roundHalfEven t : ℚ) - t| ≤ 1 / 2 := by
  have h1 : (⌊t⌋ : ℚ) ≤ t := Int.floor_le t
  have h2 : t < (⌊t⌋ : ℚ) + 1 := Int.lt_floor_add_one t
  unfold roundHalfEven
  simp only []
  rw [abs_le]
  split_ifs <;> constructor <;> push_cast <;> linarith

theorem roundHalfEven_intCast (n : Int) : roundHalfEven (n : ℚ) = n := by
  unfold roundHalfEven
  simp

theorem roundHalfEven_mono {s t : ℚ} (h : s ≤ t) : roundHalfEven s ≤ roundHalfEven t := by
  have hf : ⌊s⌋ ≤ ⌊t⌋ := Int.floor_mono h
  rcases lt_or_eq_of_le hf with hlt | heq
  · have h1 := roundHalfEven_le_floor s
    have h2 := roundHalfEven_floor_le t
    omega
  · unfold roundHalfEven
    simp only []
    rw [heq]
    have hr : s - (⌊t⌋ : ℚ) ≤ t - (⌊t⌋ : ℚ) := by linarith
    split_ifs <;> first | omega | (exfalso; linarith)

theorem roundHalfEven_le_of_le {t : ℚ} {n : Int} (h : t ≤ n) : roundHalfEven t ≤ n := by
  have := roundHalfEven_mono h
  rwa [roundHalfEven_intCast] at this

theorem roundHalfEven_ge_of_ge {t : ℚ} {n : Int} (h : (n : ℚ) ≤ t) : n ≤ roundHalfEven t := by
  have := roundHalfEven_mono h
  rwa [roundHalfEven_intCast] at this

theorem roundQ_eq (q : ℚ) (hq : q ≠ 0) :
    roundQ q = (roundHalfEven (q / (2 : ℚ) ^ ulpExp q) : ℚ) * (2 : ℚ) ^ ulpExp q := by
  unfold roundQ
  rw [if_neg hq, pow2_eq]

theorem roundQ_zero : roundQ 0 = 0 := by
  unfold roundQ; simp

theorem roundQ_err (q : ℚ) : |roundQ q - q| ≤ (2 : ℚ) ^ ulpExp q / 2 := by
  by_cases hq : q = 0
  · subst hq; rw [roundQ_zero]; simp; positivity
  · rw [roundQ_eq q hq]
    have hp : (0 : ℚ) < (2 : ℚ) ^ ulpExp q := by positivity
    have h := roundHalfEven_err (q / (2 : ℚ) ^ ulpExp q)
    have e : (roundHalfEven (q / (2 : ℚ) ^ ulpExp q) : ℚ) * (2 : ℚ) ^ ulpExp q - q
        = ((roundHalfEven (q / (2 : ℚ) ^ ulpExp q) : ℚ) - q / (2 : ℚ) ^ ulpExp q)
          * (2 : ℚ) ^ ulpExp q := by
      field_simp
    rw [e, abs_mul, abs_of_pos hp]
    calc _ ≤ 1 / 2 * (2 : ℚ) ^ ulpExp q := mul_le_mul_of_nonneg_right h hp.le
      _ = _ := by ring

theorem roundQ_nonneg {q : ℚ} (h : 0 ≤ q) : 0 ≤ roundQ q := by
  by_cases hq : q = 0
  · subst hq; rw [roundQ_zero]
  · rw [roundQ_eq q hq]
    have hp : (0 : ℚ) < (2 : ℚ) ^ ulpExp q := by positivity
    have : (0 : Int) ≤ roundHalfEven (q / (2 : ℚ) ^ ulpExp q) := by
      apply roundHalfEven_ge_of_ge
      simp only [Int.cast_zero]
      positivity
    have h2 : (0 : ℚ) ≤ (roundHalfEven (q / (2 : ℚ) ^ ulpExp q) : ℚ) := by exact_mod_cast this
    positivity

theorem binade_mono {a b : ℚ} (ha : 0 < a) (hab : a ≤ b) : binade a ≤ binade b := by
  have h1 := (binade_spec a ha.ne').1
  have h2 := (binade_spec b (ha.trans_le hab).ne').2
  rw [abs_of_pos ha] at h1
  rw [abs_of_pos (ha.trans_le hab)] at h2
  have : (2 : ℚ) ^ binade a < (2 : ℚ) ^ (binade b + 1) := lt_of_le_of_lt (h1.trans hab) h2
  rw [zpow_lt_zpow_iff_right₀ (by norm_num)] at this
  omega

theorem binade_ge {q : ℚ} {e : Int} (hq : 0 < q) (h : (2 : ℚ) ^ e ≤ q) : e ≤ binade q := by
  have h2 := (binade_spec q hq.ne').2
  rw [abs_of_pos hq] at h2
  have : (2 : ℚ) ^ e < (2 : ℚ) ^ (binade q + 1) := lt_of_le_of_lt h h2
  rw [zpow_lt_zpow_iff_right₀ (by norm_num)] at this
  omega

theorem binade_lt {q : ℚ} {e : Int} (hq : 0 < q) (h : q < (2 : ℚ) ^ e) : binade q < e := by
  have h1 := (binade_spec q hq.ne').1
  rw [abs_of_pos hq] at h1
  have : (2 : ℚ) ^ binade q < (2 : ℚ) ^ e := lt_of_le_of_lt h1 h
  rwa [zpow_lt_zpow_iff_right₀ (by norm_num)] at this

/-- Relative error of rounding in the normal range. -/
theorem roundQ_rel {q : ℚ} (hq : (2 : ℚ) ^ (-126 : Int) ≤ q) :
    |roundQ q - q| ≤ q * (2 : ℚ) ^ (-24 : Int) := by
  have hpos : 0 < q := lt_of_lt_of_le (by positivity) hq
  have hb : -126 ≤ binade q := binade_ge hpos hq
  have hu : ulpExp q = binade q - 23 := by unfold ulpExp; omega
  have h1 := (binade_spec q hpos.ne').1
  rw [abs_of_pos hpos] at h1
  calc |roundQ q - q| ≤ (2 : ℚ) ^ ulpExp q / 2 := roundQ_err q
    _ = (2 : ℚ) ^ binade q * (2 : ℚ) ^ (-24 : Int) := by
        rw [hu, ← zpow_add₀ (by norm_num : (2 : ℚ) ≠ 0)]
        have : binade q + -24 = (binade q - 23) + (-1) := by ring
        rw [this, zpow_add₀ (by norm_num : (2 : ℚ) ≠ 0)]
        norm_num
        ring
    _ ≤ q * (2 : ℚ) ^ (-24 : Int) := by
        apply mul_le_mul_of_nonneg_right h1; positivity

theorem roundQ_mono {a b : ℚ} (ha : 0 ≤ a) (hab : a ≤ b) : roundQ a ≤ roundQ b := by
  rcases eq_or_lt_of_le ha with h0 | hapos
  · subst h0; rw [roundQ_zero]; exact roundQ_nonneg hab
  have hbpos : 0 < b := hapos.trans_le hab
  have hbin := binade_mono hapos hab
  rw [roundQ_eq a hapos.ne', roundQ_eq b hbpos.ne']
  have hea : ulpExp a ≤ ulpExp b := by unfold ulpExp; omega
  rcases eq_or_lt_of_le hea with heq | hlt
  · rw [heq]
    have hp : (0 : ℚ) < (2 : ℚ) ^ ulpExp b := by positivity
    apply mul_le_mul_of_nonneg_right _ hp.le
    have : roundHalfEven (a / (2 : ℚ) ^ ulpExp b) ≤ roundHalfEven (b / (2 : ℚ) ^ ulpExp b) :=
      roundHalfEven_mono (div_le_div_of_nonneg_right hab hp.le)
    exact_mod_cast this
  · -- different binades: `2 ^ binade b` separates the two rounded values
    have hbb : ulpExp b = binade b - 23 := by unfold ulpExp at hlt ⊢; omega
    have hka : ulpExp a + 24 ≤ binade b := by unfold ulpExp at hlt ⊢; omega
    have ha2 := (binade_spec a hapos.ne').2
    rw [abs_of_pos hapos] at ha2
    have hb1 := (binade_spec b hbpos.ne').1
    rw [abs_of_pos hbpos] at hb1
    have hpa : (0 : ℚ) < (2 : ℚ) ^ ulpExp a := by positivity
    have hpb : (0 : ℚ) < (2 : ℚ) ^ ulpExp b := by positivity
    have h1 : roundHalfEven (a / (2 : ℚ) ^ ulpExp a) ≤ ((2 ^ 24 : Nat) : Int) := by
      apply roundHalfEven_le_of_le
      rw [div_le_iff₀ hpa]
      have : a < (2 : ℚ) ^ (ulpExp a + 24) := by
        apply lt_of_lt_of_le ha2
        apply zpow_le_zpow_right₀ (by norm_num)
        unfold ulpExp; omega
      rw [zpow_add₀ (by norm_num : (2 : ℚ) ≠ 0)] at this
      push_cast
      have e : ((2 : ℚ) ^ (24 : Int)) = (2 : ℚ) ^ 24 := by norm_num
      rw [e] at this
      linarith
    have h2 : ((2 ^ 23 : Nat) : Int) ≤ roundHalfEven (b / (2 : ℚ) ^ ulpExp b) := by
      apply roundHalfEven_ge_of_ge
      rw [le_div_iff₀ hpb, hbb]
      have : (2 : ℚ) ^ binade b = (2 : ℚ) ^ (23 : Int) * (2 : ℚ) ^ (binade b - 23) := by
        rw [← zpow_add₀ (by norm_num : (2 : ℚ) ≠ 0)]; congr 1; ring
      rw [this] at hb1
      push_cast
      have e : ((2 : ℚ) ^ (23 : Int)) = (2 : ℚ) ^ 23 := by norm_num
      rw [e] at hb1
      linarith
    have h1' : (roundHalfEven (a / (2 : ℚ) ^ ulpExp a) : ℚ) ≤ (2 : ℚ) ^ (24 : Int) := by
      have : (roundHalfEven (a / (2 : ℚ) ^ ulpExp a) : ℚ) ≤ (((2 ^ 24 : Nat) : Int) : ℚ) := by
        exact_mod_cast h1
      refine this.trans (le_of_eq ?_)
      norm_num
    have h2' : (2 : ℚ) ^ (23 : Int) ≤ (roundHalfEven (b / (2 : ℚ) ^ ulpExp b) : ℚ) := by
      have : (((2 ^ 23 : Nat) : Int) : ℚ) ≤ (roundHalfEven (b / (2 : ℚ) ^ ulpExp b) : ℚ) := by
        exact_mod_cast h2
      refine (le_of_eq ?_).trans this
      norm_num
    calc (roundHalfEven (a / (2 : ℚ) ^ ulpExp a) : ℚ) * (2 : ℚ) ^ ulpExp a
        ≤ (2 : ℚ) ^ (24 : Int) * (2 : ℚ) ^ ulpExp a := mul_le_mul_of_nonneg_right h1' hpa.le
      _ = (2 : ℚ) ^ (ulpExp a + 24) := by
          rw [← zpow_add₀ (by norm_num : (2 : ℚ) ≠ 0)]; congr 1; ring
      _ ≤ (2 : ℚ) ^ binade b := zpow_le_zpow_right₀ (by norm_num) hka
      _ = (2 : ℚ) ^ (23 : Int) * (2 : ℚ) ^ ulpExp b := by
          rw [hbb, ← zpow_add₀ (by norm_num : (2 : ℚ) ≠ 0)]; congr 1; ring
      _ ≤ (roundHalfEven (b / (2 : ℚ) ^ ulpExp b) : ℚ) * (2 : ℚ) ^ ulpExp b :=
          mul_le_mul_of_nonneg_right h2' hpb.le

/-- Values on the binary32 grid are fixed by rounding. -/
theorem roundQ_grid (m : Nat) (e : Int) (hm0 : 0 < m) (hm : m < 2 ^ 24) (he : -149 ≤ e) :
    roundQ ((m : ℚ) * (2 : ℚ) ^ e) = (m : ℚ) * (2 : ℚ) ^ e := by
  have hmq : (0 : ℚ) < (m : ℚ) := by exact_mod_cast hm0
  have hq : (0 : ℚ) < (m : ℚ) * (2 : ℚ) ^ e := by positivity
  have hlt : (m : ℚ) * (2 : ℚ) ^ e < (2 : ℚ) ^ (24 + e) := by
    rw [zpow_add₀ (by norm_num : (2 : ℚ) ≠ 0)]
    apply mul_lt_mul_of_pos_right _ (by positivity)
    have : (m : ℚ) < ((2 ^ 24 : Nat) : ℚ) := by exact_mod_cast hm
    refine this.trans_le (le_of_eq ?_)
    norm_num
  have hb := binade_lt hq hlt
  have hu : ulpExp ((m : ℚ) * (2 : ℚ) ^ e) ≤ e := by unfold ulpExp; omega
  obtain ⟨k, hk⟩ := Int.eq_ofNat_of_zero_le (show 0 ≤ e - ulpExp ((m : ℚ) * (2 : ℚ) ^ e) by omega)
  rw [roundQ_eq _ hq.ne']
  have hdiv : (m : ℚ) * (2 : ℚ) ^ e / (2 : ℚ) ^ ulpExp ((m : ℚ) * (2 : ℚ) ^ e)
      = (((m * 2 ^ k : Nat) : Int) : ℚ) := by
    rw [mul_div_assoc, ← zpow_sub₀ (by norm_num : (2 : ℚ) ≠ 0), hk, zpow_natCast]
    push_cast; ring
  rw [hdiv, roundHalfEven_intCast]
  rw [← hdiv]
  field_simp

theorem roundQ_natCast (n : Nat) (h : n ≤ 2 ^ 24) : roundQ (n : ℚ) = (n : ℚ) := by
  rcases Nat.eq_zero_or_pos n with h0 | hpos
  · subst h0; simp [roundQ_zero]
  rcases eq_or_lt_of_le h with he | hlt
  · subst he
    have := roundQ_grid 1 24 (by norm_num) (by norm_num) (by norm_num)
    norm_num at this ⊢
    exact this
  · have := roundQ_grid n 0 hpos hlt (by norm_num)
    simpa using this

/-! ## Values on the binary32 grid -/

/-- A rounded value is on the binary32 grid. -/
theorem roundQ_on_grid {q : ℚ} (hq : 0 ≤ q) :
    ∃ (m : Nat) (e : Int), roundQ q = (m : ℚ) * (2 : ℚ) ^ e ∧ m ≤ 2 ^ 24 ∧ -149 ≤ e := by
  rcases eq_or_lt_of_le hq with h0 | hpos
  · subst h0
    exact ⟨0, 0, by simp [roundQ_zero], by norm_num, by norm_num⟩
  · have hp : (0 : ℚ) < (2 : ℚ) ^ ulpExp q := by positivity
    have hn0 : (0 : Int) ≤ roundHalfEven (q / (2 : ℚ) ^ ulpExp q) := by
      apply roundHalfEven_ge_of_ge
      simp only [Int.cast_zero]
      positivity
    have hn1 : roundHalfEven (q / (2 : ℚ) ^ ulpExp q) ≤ ((2 ^ 24 : Nat) : Int) := by
      apply roundHalfEven_le_of_le
      rw [div_le_iff₀ hp]
      have h2 := (binade_spec q hpos.ne').2
      rw [abs_of_pos hpos] at h2
      have h3 : q < (2 : ℚ) ^ (ulpExp q + 24) := by
        apply lt_of_lt_of_le h2
        apply zpow_le_zpow_right₀ (by norm_num)
        unfold ulpExp; omega
      rw [zpow_add₀ (by norm_num : (2 : ℚ) ≠ 0)] at h3
      push_cast
      have e : ((2 : ℚ) ^ (24 : Int)) = (2 : ℚ) ^ 24 := by norm_num
      rw [e] at h3
      linarith
    refine ⟨(roundHalfEven (q / (2 : ℚ) ^ ulpExp q)).toNat, ulpExp q, ?_, by omega, ?_⟩
    · rw [roundQ_eq q hpos.ne']
      congr 1
      have := Int.toNat_of_nonneg hn0
      exact_mod_cast this.symm
    · unfold ulpExp; omega

/-- The fractional part of a nonnegative binary32 value is a binary32 value: the
subtraction of line 21 is exact. -/
theorem roundQ_fract {s : ℚ} (m : Nat) (e : Int) (hs : s = (m : ℚ) * (2 : ℚ) ^ e)
    (hm : m ≤ 2 ^ 24) (he : -149 ≤ e) : roundQ (s - (⌊s⌋ : ℚ)) = s - (⌊s⌋ : ℚ) := by
  by_cases hpos : 0 ≤ e
  · obtain ⟨k, rfl⟩ := Int.eq_ofNat_of_zero_le hpos
    have hs' : s = (((m * 2 ^ k : Nat) : Int) : ℚ) := by
      rw [hs, zpow_natCast]; push_cast; ring
    rw [hs', Int.floor_intCast]
    simp [roundQ_zero]
  · obtain ⟨k, hk⟩ := Int.eq_ofNat_of_zero_le (show 0 ≤ -e by omega)
    have he' : e = -(k : Int) := by omega
    have hpk : (0 : ℚ) < (2 : ℚ) ^ k := by positivity
    have hsk : s = (m : ℚ) / (2 : ℚ) ^ k := by
      rw [hs, he', zpow_neg, zpow_natCast]; ring
    have hdm : (m : ℚ) = ((m / 2 ^ k : Nat) : ℚ) * (2 : ℚ) ^ k + ((m % 2 ^ k : Nat) : ℚ) := by
      have := Nat.div_add_mod m (2 ^ k)
      have h2 : ((2 ^ k * (m / 2 ^ k) + m % 2 ^ k : Nat) : ℚ) = (m : ℚ) := by rw [this]
      push_cast at h2
      linarith
    have hr_lt : ((m % 2 ^ k : Nat) : ℚ) < (2 : ℚ) ^ k := by
      have : m % 2 ^ k < 2 ^ k := Nat.mod_lt _ (by positivity)
      exact_mod_cast this
    have hr0 : (0 : ℚ) ≤ ((m % 2 ^ k : Nat) : ℚ) := by positivity
    have hsplit : s = ((m / 2 ^ k : Nat) : ℚ) + ((m % 2 ^ k : Nat) : ℚ) / (2 : ℚ) ^ k := by
      rw [hsk, hdm]; field_simp
    have hc : (((m / 2 ^ k : Nat) : Int) : ℚ) = ((m / 2 ^ k : Nat) : ℚ) := Int.cast_natCast _
    have hfl : ⌊s⌋ = ((m / 2 ^ k : Nat) : Int) := by
      rw [Int.floor_eq_iff, hc]
      constructor
      · have : 0 ≤ ((m % 2 ^ k : Nat) : ℚ) / (2 : ℚ) ^ k := by positivity
        linarith
      · have : ((m % 2 ^ k : Nat) : ℚ) / (2 : ℚ) ^ k < 1 := by
          rw [div_lt_one hpk]; exact hr_lt
        linarith
    have hfrac : s - (⌊s⌋ : ℚ) = ((m % 2 ^ k : Nat) : ℚ) * (2 : ℚ) ^ e := by
      rw [hfl, hc, he', zpow_neg, zpow_natCast]
      generalize ((m % 2 ^ k : Nat) : ℚ) = r at hsplit ⊢
      generalize ((m / 2 ^ k : Nat) : ℚ) = d at hsplit ⊢
      rw [hsplit]
      ring
    rw [hfrac]
    have hrm : m % 2 ^ k ≤ 2 ^ 24 := le_trans (Nat.mod_le _ _) hm
    rcases Nat.eq_zero_or_pos (m % 2 ^ k) with hz | hrpos
    · rw [hz]; simp [roundQ_zero]
    rcases eq_or_lt_of_le hrm with heq | hlt
    · rw [heq]
      have h1 := roundQ_grid 1 (e + 24) (by norm_num) (by norm_num) (by omega)
      have h2 : ((1 : Nat) : ℚ) * (2 : ℚ) ^ (e + 24) = ((2 ^ 24 : Nat) : ℚ) * (2 : ℚ) ^ e := by
        rw [zpow_add₀ (by norm_num : (2 : ℚ) ≠ 0)]
        norm_num
        ring
      rw [h2] at h1
      exact h1
    · exact roundQ_grid _ e hrpos hlt he

/-! ## Source positions -/

theorem wrapInt_eq {i : Int} (h1 : -2147483648 ≤ i) (h2 : i ≤ 2147483647) : wrapInt i = i := by
  unfold wrapInt; omega

theorem pow2_128 : pow2 128 = (2 : ℚ) ^ (128 : Int) := pow2_eq 128

/-- Rounding a value of moderate size does not overflow. -/
theorem F32.round_fin {q : ℚ} (h0 : 0 ≤ q) (h : q ≤ (2 : ℚ) ^ (100 : Int)) :
    F32.round q = F32.fin (roundQ q) := by
  unfold F32.round
  have h1 : roundQ q ≤ roundQ ((2 : ℚ) ^ (100 : Int)) := roundQ_mono h0 h
  have h2 : roundQ ((2 : ℚ) ^ (100 : Int)) = (2 : ℚ) ^ (100 : Int) := by
    have := roundQ_grid 1 100 (by norm_num) (by norm_num) (by norm_num)
    simpa using this
  have h3 : 0 ≤ roundQ q := roundQ_nonneg h0
  rw [if_neg]
  rw [pow2_128, abs_of_nonneg h3, not_le]
  calc roundQ q ≤ (2 : ℚ) ^ (100 : Int) := h2 ▸ h1
    _ < (2 : ℚ) ^ (128 : Int) := by
      apply zpow_lt_zpow_right₀ (by norm_num) (by norm_num)

theorem F32.ofInt_small {i : Int} (h0 : 0 ≤ i) (h : i ≤ 16777216) :
    F32.ofInt i = F32.fin (i : ℚ) := by
  obtain ⟨n, rfl⟩ := Int.eq_ofNat_of_zero_le h0
  unfold F32.ofInt
  have hn : n ≤ 2 ^ 24 := by norm_num; omega
  have hq : ((n : Int) : ℚ) = (n : ℚ) := by simp
  rw [hq, F32.round_fin (by positivity), roundQ_natCast n hn]
  have : (n : ℚ) ≤ ((2 ^ 24 : Nat) : ℚ) := by exact_mod_cast hn
  refine this.trans ?_
  norm_num

theorem roundQ_one : roundQ 1 = 1 := by
  have := roundQ_natCast 1 (by norm_num)
  simpa using this

theorem roundQ_le_one {q : ℚ} (h0 : 0 ≤ q) (h : q ≤ 1) : roundQ q ≤ 1 := by
  have := roundQ_mono h0 h
  rwa [roundQ_one] at this

/-- Upper bound on a rounded value in the normal range. -/
theorem roundQ_le_rel {q : ℚ} (hq : (2 : ℚ) ^ (-126 : Int) ≤ q) :
    roundQ q ≤ q * (1 + 1 / 16777216) := by
  have h := roundQ_rel hq
  rw [abs_le] at h
  have e : (2 : ℚ) ^ (-24 : Int) = 1 / 16777216 := by norm_num
  rw [e] at h
  linarith [h.2]

/-- Lower bound on a rounded value in the normal range. -/
theorem roundQ_ge_rel {q : ℚ} (hq : (2 : ℚ) ^ (-126 : Int) ≤ q) :
    q * (1 - 1 / 16777216) ≤ roundQ q := by
  have h := roundQ_rel hq
  rw [abs_le] at h
  have e : (2 : ℚ) ^ (-24 : Int) = 1 / 16777216 := by norm_num
  rw [e] at h
  linarith [h.1]

theorem tiny_le : (2 : ℚ) ^ (-126 : Int) ≤ 1 / 4294967296 := by
  have : (2 : ℚ) ^ (-126 : Int) ≤ (2 : ℚ) ^ (-32 : Int) :=
    zpow_le_zpow_right₀ (by norm_num) (by norm_num)
  refine this.trans (le_of_eq ?_)
  norm_num

/-- Lines 13-14 on the bounded domain: the source position is a finite float in `[0, old)`. -/
theorem src_pos_bounded {x old new : Int} (hold : 0 < old) (hold' : old ≤ 16777216)
    (hnew : 0 < new) (hnew' : new ≤ 8388608) (hx0 : 0 ≤ x) (hx : x < new) :
    ∃ s : ℚ, src_pos x old new = F32.fin s ∧ 0 ≤ s ∧ s < (old : ℚ) ∧
      roundQ (s - (⌊s⌋ : ℚ)) = s - (⌊s⌋ : ℚ) := by
  unfold src_pos
  rw [F32.ofInt_small hx0 (by omega), F32.ofInt_small hold.le hold',
    F32.ofInt_small hnew.le (by omega)]
  have holdq : (1 : ℚ) ≤ (old : ℚ) := by exact_mod_cast hold
  have holdq' : (old : ℚ) ≤ 16777216 := by exact_mod_cast hold'
  have hnewq : (1 : ℚ) ≤ (new : ℚ) := by exact_mod_cast hnew
  have hnewq' : (new : ℚ) ≤ 8388608 := by exact_mod_cast hnew'
  have hxq0 : (0 : ℚ) ≤ (x : ℚ) := by exact_mod_cast hx0
  have hxq : (x : ℚ) ≤ (new : ℚ) - 1 := by
    have : x ≤ new - 1 := by omega
    exact_mod_cast this
  have hne : (new : ℚ) ≠ 0 := by linarith
  have hnpos : (0 : ℚ) < (new : ℚ) := by linarith
  have hratio_pos : 0 < (old : ℚ) / (new : ℚ) := by positivity
  have hratio_lo : 1 / 8388608 ≤ (old : ℚ) / (new : ℚ) := by
    rw [le_div_iff₀ hnpos]; linarith
  have hratio_hi : (old : ℚ) / (new : ℚ) ≤ 16777216 := by
    rw [div_le_iff₀ hnpos]; nlinarith
  have hnorm : (2 : ℚ) ^ (-126 : Int) ≤ (old : ℚ) / (new : ℚ) :=
    tiny_le.trans (le_trans (by norm_num) hratio_lo)
  simp only [F32.div, if_neg hne]
  rw [F32.round_fin hratio_pos.le (hratio_hi.trans (by norm_num))]
  set r := roundQ ((old : ℚ) / (new : ℚ)) with hr
  have hr_hi : r ≤ (old : ℚ) / (new : ℚ) * (1 + 1 / 16777216) := roundQ_le_rel hnorm
  have hr_lo : (old : ℚ) / (new : ℚ) * (1 - 1 / 16777216) ≤ r := roundQ_ge_rel hnorm
  have hr_pos : 1 / 16777216 ≤ r := by
    refine le_trans ?_ hr_lo
    nlinarith
  simp only [F32.mul]
  have hprod0 : 0 ≤ (x : ℚ) * r := by positivity
  have hr_hi2 : r ≤ 16777216 * 2 := by nlinarith
  have hprod_hi : (x : ℚ) * r ≤ (2 : ℚ) ^ (100 : Int) := by
    have : (x : ℚ) * r ≤ 8388608 * (16777216 * 2) := by
      apply mul_le_mul (by linarith) hr_hi2 (by linarith) (by norm_num)
    refine this.trans ?_
    norm_num
  rw [F32.round_fin hprod0 hprod_hi]
  obtain ⟨m, e, hme, hm, he⟩ := roundQ_on_grid hprod0
  refine ⟨_, rfl, roundQ_nonneg hprod0, ?_, roundQ_fract m e hme hm he⟩
  rcases eq_or_lt_of_le hx0 with h0 | hxpos
  · subst h0
    simp only [Int.cast_zero, zero_mul, roundQ_zero]
    linarith
  · have hx1 : (1 : ℚ) ≤ (x : ℚ) := by
      have : (1 : Int) ≤ x := by omega
      exact_mod_cast this
    have hprod_lo : 1 / 16777216 ≤ (x : ℚ) * r := by nlinarith
    have hnorm2 : (2 : ℚ) ^ (-126 : Int) ≤ (x : ℚ) * r :=
      tiny_le.trans (le_trans (by norm_num) hprod_lo)
    have h1 := roundQ_le_rel hnorm2
    -- x * r ≤ (new - 1) * (old / new) * (1 + ε)
    have h2 : (x : ℚ) * r ≤ ((new : ℚ) - 1) * ((old : ℚ) / (new : ℚ) * (1 + 1 / 16777216)) := by
      apply mul_le_mul hxq hr_hi (by linarith) (by linarith)
    have h3 : ((new : ℚ) - 1) * ((1 + 1 / 16777216) * (1 + 1 / 16777216)) < (new : ℚ) := by
      linarith
    have h4 : ((new : ℚ) - 1) * ((old : ℚ) / (new : ℚ) * (1 + 1 / 16777216))
        * (1 + 1 / 16777216) < (old : ℚ) := by
      have e : ((new : ℚ) - 1) * ((old : ℚ) / (new : ℚ) * (1 + 1 / 16777216))
          * (1 + 1 / 16777216)
          = ((new : ℚ) - 1) * ((1 + 1 / 16777216) * (1 + 1 / 16777216))
            * ((old : ℚ) / (new : ℚ)) := by ring
      rw [e]
      calc _ < (new : ℚ) * ((old : ℚ) / (new : ℚ)) :=
            mul_lt_mul_of_pos_right h3 hratio_pos
        _ = (old : ℚ) := by field_simp
    calc roundQ ((x : ℚ) * r) ≤ (x : ℚ) * r * (1 + 1 / 16777216) := h1
      _ ≤ ((new : ℚ) - 1) * ((old : ℚ) / (new : ℚ) * (1 + 1 / 16777216))
          * (1 + 1 / 16777216) := by
          apply mul_le_mul_of_nonneg_right h2 (by norm_num)
      _ < (old : ℚ) := h4

/-! ## Loops of `resize_image` -/

theorem forLoop_append {σ : Type} (body : Int → σ → Option σ) (l1 l2 : List Nat) (s : σ) :
    forLoop body (l1 ++ l2) s = (forLoop body l1 s).bind (forLoop body l2) := by
  induction l1 generalizing s with
  | nil => simp [forLoop]
  | cons i rest ih =>
    simp only [List.cons_append, forLoop]
    cases h : body (i : Int) s with
    | none => simp
    | some s' => simp [ih]

/-- Invariant rule for a counted loop. -/
theorem forLoop_range_inv {σ : Type} (body : Int → σ → Option σ) (P : Nat → σ → Prop) :
    ∀ (n : Nat) (s0 : σ), P 0 s0 →
      (∀ i, i < n → ∀ s, P i s → ∃ s', body (i : Int) s = some s' ∧ P (i + 1) s') →
      ∃ s', forLoop body (List.range n) s0 = some s' ∧ P n s' := by
  intro n
  induction n with
  | zero => intro s0 h0 _; exact ⟨s0, by simp [forLoop], h0⟩
  | succ n ih =>
    intro s0 h0 hstep
    obtain ⟨s1, h1, hP1⟩ := ih s0 h0 (fun i hi s hs => hstep i (by omega) s hs)
    obtain ⟨s2, h2, hP2⟩ := hstep n (by omega) s1 hP1
    refine ⟨s2, ?_, hP2⟩
    rw [List.range_succ, forLoop_append, h1]
    simp [forLoop, h2]

theorem forLoop_skip {σ : Type} (body : Int → σ → Option σ) (l : List Nat) (s : σ)
    (h : ∀ i s', body i s' = some s') : forLoop body l s = some s := by
  induction l with
  | nil => rfl
  | cons i rest ih => simp [forLoop, h, ih]

theorem offset_eq {x c : Nat} (hx : 3 * x + c ≤ 2147483647) :
    offset (x : Int) (c : Int) = ((3 * x + c : Nat) : Int) := by
  unfold offset
  have h1 : wrapInt ((x : Int) * 3) = (x : Int) * 3 := wrapInt_eq (by omega) (by omega)
  rw [h1, wrapInt_eq (by omega) (by omega)]
  push_cast; ring

section resize
variable (input : Buffer) (ow oh : Int) (nw nh : Nat) (v : Nat → Nat → Nat → Nat)
variable (R B : Nat)

theorem resize_channel_step (hR : nh ≤ R) (hB : 3 * nw ≤ B) (hsmall : 3 * nw ≤ 2147483647)
    (hv : ∀ y x c : Nat, y < nh → x < nw → c < 3 →
      resize_value input ow oh nw nh y x c = some (v y x c))
    (y x c : Nat) (hy : y < nh) (hx : x < nw) (hc : c < 3) (st : ResizeState)
    (hinv : ResizeInv nw v R B y x c st) :
    ∃ st', resize_channel input ow oh nw nh y x c st = some st' ∧
      ResizeInv nw v R B y x (c + 1) st' := by
  obtain ⟨h1, h2, h3, h4, h5⟩ := hinv
  unfold resize_channel
  rw [hv y x c hy hx hc]
  have hoff : offset (x : Int) (c : Int) = ((3 * x + c : Nat) : Int) := offset_eq (by omega)
  have hcond : 0 ≤ (y : Int) ∧ (y : Int) < st.output.rows ∧ 0 ≤ offset (x : Int) (c : Int) ∧
      offset (x : Int) (c : Int) < st.output.rowBytes := by
    rw [hoff, h1, h2]
    refine ⟨by omega, by omega, by omega, ?_⟩
    have : 3 * x + c < B := by omega
    exact_mod_cast this
  simp only [Option.bind_eq_bind, Option.some_bind, Buffer.set, if_pos hcond]
  refine ⟨_, rfl, h1, h2, ?_, ?_, ?_⟩
  · intro y2 x2 c2 hy2 hx2 hc2
    simp only [hoff, Int.toNat_ofNat]
    rw [if_neg (by omega)]
    exact h3 y2 x2 c2 hy2 hx2 hc2
  · intro x2 c2 hx2 hc2
    simp only [hoff, Int.toNat_ofNat]
    rw [if_neg (by omega)]
    exact h4 x2 c2 hx2 hc2
  · intro c2 hc2
    simp only [hoff, Int.toNat_ofNat]
    by_cases hcc : c2 = c
    · subst hcc; simp
    · rw [if_neg (by omega)]
      exact h5 c2 (by omega)

theorem resize_pixel_step (hR : nh ≤ R) (hB : 3 * nw ≤ B) (hsmall : 3 * nw ≤ 2147483647)
    (hv : ∀ y x c : Nat, y < nh → x < nw → c < 3 →
      resize_value input ow oh nw nh y x c = some (v y x c))
    (y x : Nat) (hy : y < nh) (hx : x < nw) (st : ResizeState)
    (hinv : ResizeInv nw v R B y x 0 st) :
    ∃ st', resize_pixel input ow oh nw nh y x st = some st' ∧
      ResizeInv nw v R B y (x + 1) 0 st' := by
  unfold resize_pixel
  obtain ⟨st', hst', h1, h2, h3, h4, h5⟩ :=
    forLoop_range_inv (resize_channel input ow oh nw nh y x)
      (fun c st => ResizeInv nw v R B y x c st) 3
      { st with divisions := st.divisions + 2 } hinv
      (fun c hc s hs => resize_channel_step input ow oh nw nh v R B hR hB hsmall hv y x c hy hx hc s hs)
  refine ⟨st', hst', h1, h2, h3, ?_, ?_⟩
  · intro x2 c2 hx2 hc2
    by_cases hxx : x2 = x
    · subst hxx; exact h5 c2 hc2
    · exact h4 x2 c2 (by omega) hc2
  · intro c2 hc2; omega

theorem resize_row_step (hR : nh ≤ R) (hB : 3 * nw ≤ B) (hsmall : 3 * nw ≤ 2147483647)
    (hv : ∀ y x c : Nat, y < nh → x < nw → c < 3 →
      resize_value input ow oh nw nh y x c = some (v y x c))
    (y : Nat) (hy : y < nh) (st : ResizeState)
    (hinv : ResizeInv nw v R B y 0 0 st) :
    ∃ st', resize_row input ow oh nw nh y st = some st' ∧
      ResizeInv nw v R B (y + 1) 0 0 st' := by
  unfold resize_row
  rw [Int.toNat_ofNat]
  obtain ⟨st', hst', h1, h2, h3, h4, h5⟩ :=
    forLoop_range_inv (resize_pixel input ow oh nw nh y)
      (fun x st => ResizeInv nw v R B y x 0 st) nw st hinv
      (fun x hx s hs => resize_pixel_step input ow oh nw nh v R B hR hB hsmall hv y x hy hx s hs)
  refine ⟨st', hst', h1, h2, ?_, ?_, ?_⟩
  · intro y2 x2 c2 hy2 hx2 hc2
    by_cases hyy : y2 = y
    · subst hyy; exact h4 x2 c2 hx2 hc2
    · exact h3 y2 x2 c2 (by omega) hx2 hc2
  · intro x2 c2 hx2; omega
  · intro c2 hc2; omega

/-- What `resize_image` leaves in the output rows, given the value of every pixel. -/
theorem resize_image_spec (st0 : ResizeState) (hR : nh ≤ st0.output.rows)
    (hB : 3 * nw ≤ st0.output.rowBytes) (hsmall : 3 * nw ≤ 2147483647)
    (hv : ∀ y x c : Nat, y < nh → x < nw → c < 3 →
      resize_value input ow oh nw nh y x c = some (v y x c)) :
    ∃ st, resize_image input st0 ow oh nw nh = some st ∧
      st.output.rows = st0.output.rows ∧ st.output.rowBytes = st0.output.rowBytes ∧
      ∀ y x c, y < nh → x < nw → c < 3 → st.output.data y (3 * x + c) = v y x c := by
  unfold resize_image
  rw [Int.toNat_ofNat]
  obtain ⟨st', hst', h1, h2, h3, _, _⟩ :=
    forLoop_range_inv (resize_row input ow oh nw nh)
      (fun y st => ResizeInv nw v st0.output.rows st0.output.rowBytes y 0 0 st) nh st0
      ⟨rfl, rfl, fun _ _ _ h => by omega, fun _ _ h => by omega, fun _ h => by omega⟩
      (fun y hy s hs => resize_row_step input ow oh nw nh v _ _ hR hB hsmall hv y hy s hs)
  exact ⟨st', hst', h1, h2, fun y x c hy hx hc => h3 y x c hy hx hc⟩

end resize

/-! ## Sample indices and weights -/

theorem truncQ_of_nonneg {q : ℚ} (h : 0 ≤ q) : truncQ q = ⌊q⌋ := by
  unfold truncQ; rw [if_pos h]

theorem F32.round_natCast {n : Nat} (h : n ≤ 16777216) : F32.round (n : ℚ) = F32.fin (n : ℚ) := by
  have := F32.ofInt_small (i := (n : Int)) (by omega) (by omega)
  unfold F32.ofInt at this
  simpa using this

theorem F32.ofInt_natCast {n : Nat} (h : n ≤ 16777216) :
    F32.ofInt (n : Int) = F32.fin (n : ℚ) := by
  have := F32.ofInt_small (i := (n : Int)) (by omega) (by omega)
  simpa using this

theorem F32.toInt_fin {q : ℚ} (h0 : 0 ≤ q) (h : q < 2147483648) :
    F32.toInt (F32.fin q) = some ⌊q⌋ := by
  simp only [F32.toInt]
  rw [truncQ_of_nonneg h0]
  have h1 : 0 ≤ ⌊q⌋ := Int.floor_nonneg.mpr h0
  have h2 : ⌊q⌋ < 2147483648 := by
    rw [Int.floor_lt]; exact_mod_cast h
  rw [if_pos ⟨by omega, by omega⟩]

/-- Lines 13-22 on the bounded domain: the source position `s` is a finite float in
`[0, old)`, the indices are `floor(s)` and `min(floor(s) + 1, old - 1)`, and the weight is
exactly `s - floor(s)`. -/
theorem sample_bounded {x old new : Int} (hold : 0 < old) (hold' : old ≤ 16777216)
    (hnew : 0 < new) (hnew' : new ≤ 8388608) (hx0 : 0 ≤ x) (hx : x < new) :
    ∃ s : ℚ, src_pos x old new = F32.fin s ∧ 0 ≤ s ∧ s < (old : ℚ) ∧
      sample_indices x old new = some (⌊s⌋, min (⌊s⌋ + 1) (old - 1)) ∧
      sample_weight x old new = some (F32.fin (s - (⌊s⌋ : ℚ))) := by
  obtain ⟨s, hs, hs0, hs1, hfr⟩ := src_pos_bounded hold hold' hnew hnew' hx0 hx
  have holdq : (old : ℚ) ≤ 16777216 := by exact_mod_cast hold'
  have hfl0 : 0 ≤ ⌊s⌋ := Int.floor_nonneg.mpr hs0
  have hfl1 : ⌊s⌋ < old := by rw [Int.floor_lt]; exact hs1
  have hto : F32.toInt (F32.fin s) = some ⌊s⌋ := F32.toInt_fin hs0 (by linarith)
  have hfrac0 : 0 ≤ s - (⌊s⌋ : ℚ) := by linarith [Int.floor_le s]
  have hfrac1 : s - (⌊s⌋ : ℚ) ≤ 1 := by linarith [Int.lt_floor_add_one s]
  refine ⟨s, hs, hs0, hs1, ?_, ?_⟩
  · unfold sample_indices
    rw [hs, hto]
    simp only [Option.map_some']
    rw [wrapInt_eq (by omega) (by omega), wrapInt_eq (by omega) (by omega)]
  · unfold sample_weight
    rw [hs, hto]
    simp only [Option.map_some']
    rw [F32.ofInt_small hfl0 (by omega)]
    simp only [F32.sub, F32.neg, F32.add]
    rw [← sub_eq_add_neg, F32.round_fin hfrac0 (hfrac1.trans (by norm_num)), hfr]

/-- The source position when the target size equals the source size. -/
theorem src_pos_same {x n : Int} (hn : 0 < n) (hn' : n ≤ 2147483647) (hx0 : 0 ≤ x)
    (hx : x ≤ 16777216) : src_pos x n n = F32.fin (x : ℚ) := by
  unfold src_pos
  rw [F32.ofInt_small hx0 hx]
  have hnq : (1 : ℚ) ≤ (n : ℚ) := by exact_mod_cast hn
  have hnq' : (n : ℚ) ≤ 2147483647 := by exact_mod_cast hn'
  have h1 : F32.ofInt n = F32.fin (roundQ (n : ℚ)) := by
    unfold F32.ofInt
    exact F32.round_fin (by linarith) (hnq'.trans (by norm_num))
  have h2 : 1 ≤ roundQ (n : ℚ) := by
    have := roundQ_mono (by norm_num : (0 : ℚ) ≤ 1) hnq
    rwa [roundQ_one] at this
  have h3 : roundQ (n : ℚ) ≠ 0 := by linarith
  rw [h1]
  simp only [F32.div, if_neg h3, div_self h3]
  have h4 : F32.round 1 = F32.fin 1 := by
    have := F32.round_natCast (n := 1) (by norm_num)
    simpa using this
  rw [h4]
  simp only [F32.mul, mul_one]
  obtain ⟨k, rfl⟩ := Int.eq_ofNat_of_zero_le hx0
  have := F32.round_natCast (n := k) (by omega)
  simpa using this

/-- Lines 13-22 when the target size equals the source size. -/
theorem sample_same {x n : Int} (hn : 0 < n) (hn' : n ≤ 16777217) (hx0 : 0 ≤ x)
    (hx : x < n) :
    sample_indices x n n = some (x, min (x + 1) (n - 1)) ∧
      sample_weight x n n = some (F32.fin 0) := by
  have hs := src_pos_same hn (by omega) hx0 (show x ≤ 16777216 by omega)
  have hxq0 : (0 : ℚ) ≤ (x : ℚ) := by exact_mod_cast hx0
  have hxq : (x : ℚ) < 2147483648 := by
    have : x < 2147483648 := by omega
    exact_mod_cast this
  have hto : F32.toInt (F32.fin (x : ℚ)) = some x := by
    rw [F32.toInt_fin hxq0 hxq, Int.floor_intCast]
  constructor
  · unfold sample_indices
    rw [hs, hto]
    simp only [Option.map_some']
    rw [wrapInt_eq (by omega) (by omega), wrapInt_eq (by omega) (by omega)]
  · unfold sample_weight
    rw [hs, hto]
    simp only [Option.map_some']
    rw [F32.ofInt_small hx0 (by omega)]
    simp only [F32.sub, F32.neg, F32.add, add_neg_cancel]
    have := F32.round_natCast (n := 0) (by norm_num)
    simpa using this

/-- Lines 26-28 with both weights zero return the first sample. -/
theorem bilinear_zero {a b c d : Nat} (ha : a ≤ 255) (hb : b ≤ 255) (hc : c ≤ 255)
    (hd : d ≤ 255) : bilinear (F32.fin 0) (F32.fin 0) a b c d = F32.fin (a : ℚ) := by
  have h1 : F32.ofInt 1 = F32.fin 1 := by
    have := F32.ofInt_natCast (n := 1) (by norm_num); simpa using this
  have h0 : F32.round 0 = F32.fin 0 := by
    have := F32.round_natCast (n := 0) (by norm_num); simpa using this
  have hr1 : F32.round 1 = F32.fin 1 := by
    have := F32.round_natCast (n := 1) (by norm_num); simpa using this
  unfold bilinear
  simp only [h1, F32.ofInt_natCast (show a ≤ 16777216 by omega),
    F32.ofInt_natCast (show b ≤ 16777216 by omega),
    F32.ofInt_natCast (show c ≤ 16777216 by omega),
    F32.ofInt_natCast (show d ≤ 16777216 by omega), F32.sub, F32.neg, F32.add, F32.mul,
    neg_zero, add_zero, one_mul, zero_mul, hr1, h0,
    F32.round_natCast (show a ≤ 16777216 by omega),
    F32.round_natCast (show c ≤ 16777216 by omega)]

theorem F32.toByte_natCast {a : Nat} (ha : a ≤ 255) : F32.toByte (F32.fin (a : ℚ)) = some a := by
  simp only [F32.toByte]
  rw [truncQ_of_nonneg (by positivity)]
  have : ⌊(a : ℚ)⌋ = (a : Int) := by simp
  rw [this, if_pos ⟨by omega, by omega⟩]
  simp

theorem Buffer.get_natCast (b : Buffer) {y i : Nat} (hy : y < b.rows) (hi : i < b.rowBytes) :
    b.get (y : Int) (i : Int) = some (b.data y i) := by
  unfold Buffer.get
  rw [if_pos ⟨by omega, by omega, by omega, by omega⟩]
  simp

/-- The byte `resize_image` stores at a pixel when the target size equals the source
size is the source byte. -/
theorem resize_value_same (input : Buffer) (W H : Nat) (hW : W ≤ 16777217)
    (hH : H ≤ 16777217) (hrows : input.rows = H) (hbytes : input.rowBytes = 3 * W)
    (hbyte : ∀ y i, input.data y i ≤ 255) (y x c : Nat) (hy : y < H) (hx : x < W)
    (hc : c < 3) :
    resize_value input W H W H y x c = some (input.data y (3 * x + c)) := by
  obtain ⟨hxi, hxw⟩ := sample_same (x := (x : Int)) (n := (W : Int)) (by omega) (by omega)
    (by omega) (by omega)
  obtain ⟨hyi, hyw⟩ := sample_same (x := (y : Int)) (n := (H : Int)) (by omega) (by omega)
    (by omega) (by omega)
  obtain ⟨x1, hx1, hx1'⟩ : ∃ x1 : Nat, min ((x : Int) + 1) ((W : Int) - 1) = (x1 : Int) ∧ x1 < W :=
    ⟨(min ((x : Int) + 1) ((W : Int) - 1)).toNat, by omega, by omega⟩
  obtain ⟨y1, hy1, hy1'⟩ : ∃ y1 : Nat, min ((y : Int) + 1) ((H : Int) - 1) = (y1 : Int) ∧ y1 < H :=
    ⟨(min ((y : Int) + 1) ((H : Int) - 1)).toNat, by omega, by omega⟩
  unfold resize_value resize_blend neighbours
  rw [hxi, hyi, hxw, hyw]
  simp only [Option.bind_eq_bind, Option.some_bind]
  rw [hx1, hy1, offset_eq (x := x) (c := c) (by omega), offset_eq (x := x1) (c := c) (by omega)]
  rw [Buffer.get_natCast input (by omega) (by omega),
    Buffer.get_natCast input (by omega) (by omega),
    Buffer.get_natCast input (by omega) (by omega),
    Buffer.get_natCast input (by omega) (by omega)]
  simp only [Option.some_bind]
  rw [bilinear_zero (hbyte _ _) (hbyte _ _) (hbyte _ _) (hbyte _ _),
    F32.toByte_natCast (hbyte _ _)]

/-! ## Square root -/

theorem natLog2_lt (n : Nat) : n < 2 ^ (natLog2 n + 1) := by
  rcases Nat.eq_zero_or_pos n with h | h
  · subst h; positivity
  · exact (natLog2_spec n h).2

theorem natSqrtLoop_spec : ∀ (k n r : Nat), r * r ≤ n → n < (r + 2 ^ k) * (r + 2 ^ k) →
    natSqrtLoop k n r * natSqrtLoop k n r ≤ n ∧
      n < (natSqrtLoop k n r + 1) * (natSqrtLoop k n r + 1) := by
  intro k
  induction k with
  | zero =>
    intro n r h1 h2
    simp only [natSqrtLoop]
    simpa using ⟨h1, h2⟩
  | succ k ih =>
    intro n r h1 h2
    simp only [natSqrtLoop]
    split_ifs with hc
    · apply ih n (r + 2 ^ k) hc
      have : r + 2 ^ k + 2 ^ k = r + 2 ^ (k + 1) := by rw [pow_succ]; ring
      rw [this]; exact h2
    · exact ih n r h1 (not_le.mp hc)

theorem natSqrt_spec (n : Nat) :
    natSqrt n * natSqrt n ≤ n ∧ n < (natSqrt n + 1) * (natSqrt n + 1) := by
  unfold natSqrt
  apply natSqrtLoop_spec
  · simp
  · have h1 := natLog2_lt n
    have h2 : natLog2 n + 1 ≤ 2 * (natLog2 n / 2 + 1) := by omega
    have h3 : 2 ^ (natLog2 n + 1) ≤ 2 ^ (2 * (natLog2 n / 2 + 1)) :=
      Nat.pow_le_pow_right (by norm_num) h2
    have h4 : (0 + 2 ^ (natLog2 n / 2 + 1)) * (0 + 2 ^ (natLog2 n / 2 + 1))
        = 2 ^ (2 * (natLog2 n / 2 + 1)) := by
      rw [zero_add, ← pow_add]; congr 1; ring
    rw [h4]; omega

/-- Arithmetic core of `sqrtQ_spec`. -/
theorem sqrt_bounds_aux {q t p r : ℚ} (hp : 0 < p) (hr : 8388608 ≤ r)
    (h1 : (r - 1 / 2) * (r - 1 / 2) ≤ t) (h2 : t ≤ (r + 1 / 2) * (r + 1 / 2))
    (hq : q = t * (p * p)) :
    0 < r * p ∧ r * p * (r * p) * (1 - 1 / 8388608) ≤ q ∧
      q ≤ r * p * (r * p) * (1 + 1 / 4194304) := by
  have hpp : 0 < p * p := by positivity
  have hr0 : 0 < r := by linarith
  have a1 : r * r * (1 - 1 / 8388608) ≤ t := by nlinarith
  have a2 : t ≤ r * r * (1 + 1 / 4194304) := by nlinarith
  refine ⟨by positivity, ?_, ?_⟩
  · rw [hq]
    calc r * p * (r * p) * (1 - 1 / 8388608) = r * r * (1 - 1 / 8388608) * (p * p) := by ring
      _ ≤ t * (p * p) := mul_le_mul_of_nonneg_right a1 hpp.le
  · rw [hq]
    calc t * (p * p) ≤ r * r * (1 + 1 / 4194304) * (p * p) :=
          mul_le_mul_of_nonneg_right a2 hpp.le
      _ = r * p * (r * p) * (1 + 1 / 4194304) := by ring

/-- The rounded square root, squared, is within relative `2 ^ -22` of the argument. -/
theorem sqrtQ_spec {q : ℚ} (hq : 0 < q) :
    0 < sqrtQ q ∧ sqrtQ q * sqrtQ q * (1 - 1 / 8388608) ≤ q ∧
      q ≤ sqrtQ q * sqrtQ q * (1 + 1 / 4194304) := by
  unfold sqrtQ
  rw [if_neg (not_le.mpr hq)]
  simp only [pow2_eq]
  set u : Int := binade q / 2 - 23 with hu
  set t : ℚ := q / (2 : ℚ) ^ (2 * u) with ht
  set m : Nat := natSqrt ⌊t⌋.toNat with hm
  have hp : (0 : ℚ) < (2 : ℚ) ^ (2 * u) := by positivity
  have hpu : (0 : ℚ) < (2 : ℚ) ^ u := by positivity
  have hb := (binade_spec q hq.ne').1
  rw [abs_of_pos hq] at hb
  have ht46 : (2 : ℚ) ^ (46 : Int) ≤ t := by
    rw [ht, le_div_iff₀ hp, ← zpow_add₀ (by norm_num : (2 : ℚ) ≠ 0)]
    refine le_trans (zpow_le_zpow_right₀ (by norm_num) ?_) hb
    omega
  have ht46' : (70368744177664 : ℚ) ≤ t := by
    refine le_trans (le_of_eq ?_) ht46; norm_num
  have htpos : 0 < t := lt_of_lt_of_le (by norm_num) ht46'
  have hfl0 : 0 ≤ ⌊t⌋ := Int.floor_nonneg.mpr htpos.le
  have hfl : ((⌊t⌋.toNat : Nat) : Int) = ⌊t⌋ := Int.toNat_of_nonneg hfl0
  obtain ⟨hs1, hs2⟩ := natSqrt_spec ⌊t⌋.toNat
  rw [← hm] at hs1 hs2
  -- m * m ≤ t < (m + 1) * (m + 1)
  have hm1 : (m : ℚ) * (m : ℚ) ≤ t := by
    have h1 : ((m * m : Nat) : Int) ≤ ⌊t⌋ := by rw [← hfl]; exact_mod_cast hs1
    have h2 : (((m * m : Nat) : Int) : ℚ) ≤ t := by
      rw [← Int.le_floor]; exact h1
    push_cast at h2; exact h2
  have hm2 : t < ((m : ℚ) + 1) * ((m : ℚ) + 1) := by
    have h1 : ⌊t⌋ < (((m + 1) * (m + 1) : Nat) : Int) := by rw [← hfl]; exact_mod_cast hs2
    have h2 : t < ((((m + 1) * (m + 1) : Nat) : Int) : ℚ) := by
      rw [← Int.floor_lt]; exact h1
    push_cast at h2; exact h2
  have hmbig : (8388608 : ℚ) ≤ (m : ℚ) := by
    by_contra hcon
    push_neg at hcon
    have h1 : m < 8388608 := by exact_mod_cast hcon
    have h2 : (m : ℚ) + 1 ≤ 8388608 := by
      have : m + 1 ≤ 8388608 := by omega
      exact_mod_cast this
    have h3 : ((m : ℚ) + 1) * ((m : ℚ) + 1) ≤ 8388608 * 8388608 := by
      apply mul_le_mul h2 h2 (by positivity) (by norm_num)
    linarith
  -- the rounded significand
  set r : Nat := if t < ((m : ℚ) + 1 / 2) * ((m : ℚ) + 1 / 2) then m
    else if ((m : ℚ) + 1 / 2) * ((m : ℚ) + 1 / 2) < t then m + 1
    else if m % 2 = 0 then m else m + 1 with hr
  have hr_cases : ((r : ℚ) - 1 / 2) * ((r : ℚ) - 1 / 2) ≤ t ∧
      t ≤ ((r : ℚ) + 1 / 2) * ((r : ℚ) + 1 / 2) ∧ (8388608 : ℚ) ≤ (r : ℚ) := by
    rw [hr]
    split_ifs with h1 h2 h3
    · refine ⟨?_, h1.le, hmbig⟩
      nlinarith
    · push_cast
      refine ⟨?_, ?_, by linarith⟩
      · have : (m : ℚ) + 1 - 1 / 2 = (m : ℚ) + 1 / 2 := by ring
        rw [this]; exact h2.le
      · nlinarith
    · refine ⟨?_, not_lt.mp h2, hmbig⟩
      nlinarith
    · push_cast
      refine ⟨?_, ?_, by linarith⟩
      · have : (m : ℚ) + 1 - 1 / 2 = (m : ℚ) + 1 / 2 := by ring
        rw [this]; exact not_lt.mp h1
      · nlinarith
  obtain ⟨hr1, hr2, hr3⟩ := hr_cases
  have hq_eq : q = t * (2 : ℚ) ^ (2 * u) := by rw [ht]; field_simp
  have hpp : (2 : ℚ) ^ (2 * u) = (2 : ℚ) ^ u * (2 : ℚ) ^ u := by
    rw [← zpow_add₀ (by norm_num : (2 : ℚ) ≠ 0)]; congr 1; ring
  rw [hpp] at hq_eq
  clear_value r t
  generalize (2 : ℚ) ^ u = p at hpu hq_eq ⊢
  exact sqrt_bounds_aux hpu hr3 hr1 hr2 hq_eq

/-! ## The planned factor -/

theorem margin_eq : F32.round (95 / 100) = F32.fin (15938355 / 16777216) := by decide!

theorem max_pixels_eq : MAX_OUTPUT_CHARS / 25 = 7600 := by decide

theorem normal_of_ge {q : ℚ} (h : 1 / 4294967296 ≤ q) : (2 : ℚ) ^ (-126 : Int) ≤ q :=
  tiny_le.trans h

theorem round_bounds {q : ℚ} (hlo : 1 / 4294967296 ≤ q) (hhi : q ≤ 1000000000000) :
    F32.round q = F32.fin (roundQ q) ∧ q * (1 - 1 / 16777216) ≤ roundQ q ∧
      roundQ q ≤ q * (1 + 1 / 16777216) := by
  have h0 : 0 ≤ q := le_trans (by norm_num) hlo
  exact ⟨F32.round_fin h0 (hhi.trans (by norm_num)), roundQ_ge_rel (normal_of_ge hlo),
    roundQ_le_rel (normal_of_ge hlo)⟩

theorem lt_of_sq_lt {a b : ℚ} (ha : 0 ≤ a) (hb : 0 ≤ b) (h : a * a < b * b) : a < b := by
  by_contra hcon
  push_neg at hcon
  have : b * b ≤ a * a := mul_le_mul hcon hcon hb ha
  linarith

/-- Arithmetic core of the planner bound. -/
theorem plan_arith {s nq N1 q1 f : ℚ} (hs : 0 < s) (hnq : 1 ≤ nq) (hf0 : 0 < f)
    (h1 : s * s * (1 - 1 / 8388608) ≤ q1) (h2 : nq * (1 - 1 / 16777216) ≤ N1)
    (h3 : q1 * N1 ≤ 7600 * (1 + 1 / 16777216))
    (h4 : f ≤ s * (15938355 / 16777216) * (1 + 1 / 16777216)) :
    f * f * nq ≤ 6860 := by
  have a1 : 0 ≤ s * s * (1 - 1 / 8388608) := by positivity
  have a2 : 0 ≤ nq * (1 - 1 / 16777216) := by nlinarith
  have a3 : 0 ≤ q1 := le_trans a1 h1
  have a4 : s * s * (1 - 1 / 8388608) * (nq * (1 - 1 / 16777216)) ≤ q1 * N1 :=
    mul_le_mul h1 h2 a2 a3
  have a5 : s * s * nq ≤ 7601 := by nlinarith
  have a6 : f * f ≤ s * (15938355 / 16777216) * (1 + 1 / 16777216)
      * (s * (15938355 / 16777216) * (1 + 1 / 16777216)) :=
    mul_le_mul h4 h4 hf0.le (le_trans hf0.le h4)
  have a7 : f * f * nq ≤ s * (15938355 / 16777216) * (1 + 1 / 16777216)
      * (s * (15938355 / 16777216) * (1 + 1 / 16777216)) * nq :=
    mul_le_mul_of_nonneg_right a6 (by linarith)
  have a8 : s * s * nq * ((1 - 1 / 8388608) * (1 - 1 / 16777216)) ≤ 7600 * (1 + 1 / 16777216) := by
    calc s * s * nq * ((1 - 1 / 8388608) * (1 - 1 / 16777216))
        = s * s * (1 - 1 / 8388608) * (nq * (1 - 1 / 16777216)) := by ring
      _ ≤ q1 * N1 := a4
      _ ≤ _ := h3
  nlinarith

theorem ofInt_bounds {n : Int} (h1 : 1 ≤ n) (h2 : n ≤ 2147483647) :
    ∃ N1 : ℚ, F32.ofInt n = F32.fin N1 ∧ (n : ℚ) * (1 - 1 / 16777216) ≤ N1 ∧
      N1 ≤ (n : ℚ) * (1 + 1 / 16777216) := by
  have hq1 : (1 : ℚ) ≤ (n : ℚ) := by exact_mod_cast h1
  have hq2 : (n : ℚ) ≤ 2147483647 := by exact_mod_cast h2
  obtain ⟨b1, b2, b3⟩ := round_bounds (q := (n : ℚ)) (by linarith) (by linarith)
  exact ⟨_, b1, b2, b3⟩

theorem div_step {N1 : ℚ} (h1 : 1 / 2 ≤ N1) (h2 : N1 ≤ 2200000000) :
    ∃ q1 : ℚ, F32.div (F32.fin 7600) (F32.fin N1) = F32.fin q1 ∧ 1 / 310000 ≤ q1 ∧
      q1 ≤ 15202 ∧ q1 * N1 ≤ 7600 * (1 + 1 / 16777216) := by
  have hN1pos : 0 < N1 := by linarith
  have hq0lo : 1 / 300000 ≤ 7600 / N1 := by
    rw [le_div_iff₀ hN1pos]; linarith
  have hq0hi : 7600 / N1 ≤ 15200 := by
    rw [div_le_iff₀ hN1pos]; linarith
  obtain ⟨c1, c2, c3⟩ := round_bounds (q := 7600 / N1)
    (le_trans (by norm_num) hq0lo) (hq0hi.trans (by norm_num))
  refine ⟨roundQ (7600 / N1), ?_, ?_, ?_, ?_⟩
  · simp only [F32.div, if_neg hN1pos.ne']
    exact c1
  · generalize roundQ (7600 / N1) = q1 at c2 c3 ⊢
    linarith
  · generalize roundQ (7600 / N1) = q1 at c2 c3 ⊢
    linarith
  · generalize roundQ (7600 / N1) = q1 at c2 c3 ⊢
    have : 7600 / N1 * N1 = 7600 := by field_simp
    calc q1 * N1 ≤ 7600 / N1 * (1 + 1 / 16777216) * N1 :=
          mul_le_mul_of_nonneg_right c3 hN1pos.le
      _ = 7600 / N1 * N1 * (1 + 1 / 16777216) := by ring
      _ = _ := by rw [this]

theorem sqrt_margin_step {q1 : ℚ} (h1 : 1 / 310000 ≤ q1) (h2 : q1 ≤ 15202) :
    ∃ s fr : ℚ, F32.mul (F32.sqrt (F32.fin q1)) (F32.fin (15938355 / 16777216)) = F32.fin fr ∧
      0 < s ∧ s * s * (1 - 1 / 8388608) ≤ q1 ∧ 1 / 1000 ≤ fr ∧
      fr ≤ s * (15938355 / 16777216) * (1 + 1 / 16777216) := by
  have hq1pos : 0 < q1 := lt_of_lt_of_le (by norm_num) h1
  obtain ⟨s1, s2, s3⟩ := sqrtQ_spec hq1pos
  have hsq : F32.sqrt (F32.fin q1) = F32.fin (sqrtQ q1) := by
    simp only [F32.sqrt, if_neg (not_lt.mpr hq1pos.le)]
  rw [hsq]
  generalize sqrtQ q1 = s at s1 s2 s3 ⊢
  have hslo : 1 / 600 ≤ s := by
    by_contra hcon
    push_neg at hcon
    have : s * s ≤ 1 / 600 * (1 / 600) := mul_le_mul hcon.le hcon.le s1.le (by norm_num)
    nlinarith
  have hshi : s ≤ 200 := by
    by_contra hcon
    push_neg at hcon
    have : 200 * 200 ≤ s * s := mul_le_mul hcon.le hcon.le (by norm_num) s1.le
    nlinarith
  obtain ⟨d1, d2, d3⟩ := round_bounds (q := s * (15938355 / 16777216))
    (by linarith) (by linarith)
  refine ⟨s, roundQ (s * (15938355 / 16777216)), ?_, s1, s2, ?_, d3⟩
  · simp only [F32.mul]; exact d1
  · generalize roundQ (s * (15938355 / 16777216)) = fr at d2 d3 ⊢
    linarith

/-- Lines 114-119: on sources of at most `2 ^ 31 - 1` pixels the clamped factor is a
finite float in `[1 / 1000, 1]` whose square times the pixel count is at most `6860`. -/
theorem clamped_scale_factor_spec {W H : Int} (hW : 0 < W) (hH : 0 < H)
    (hWH : W * H ≤ 2147483647) :
    ∃ f : ℚ, clamped_scale_factor W H = F32.fin f ∧ 1 / 1000 ≤ f ∧ f ≤ 1 ∧
      f * f * ((W : ℚ) * (H : ℚ)) ≤ 6860 := by
  have hn1 : 1 ≤ W * H := by
    have := Int.mul_pos hW hH
    omega
  have hnq1 : (1 : ℚ) ≤ ((W * H : Int) : ℚ) := by exact_mod_cast hn1
  obtain ⟨N1, hN1, b2, b3⟩ := ofInt_bounds hn1 hWH
  have hnq2 : ((W * H : Int) : ℚ) ≤ 2147483647 := by exact_mod_cast hWH
  obtain ⟨q1, hq1, c1, c2, c3⟩ := @div_step N1 (by linarith) (by linarith)
  obtain ⟨s, fr, hfr, s1, s2, d1, d2⟩ := sqrt_margin_step c1 c2
  have h7600 : F32.ofInt 7600 = F32.fin 7600 := by
    have := F32.ofInt_small (i := 7600) (by norm_num) (by norm_num)
    simpa using this
  have hraw : calculate_max_scale_factor W H = F32.fin fr := by
    unfold calculate_max_scale_factor
    simp only [max_pixels_eq, margin_eq]
    rw [wrapInt_eq (by omega) (by omega), hN1, h7600, hq1, hfr]
  unfold clamped_scale_factor
  simp only [hraw, F32.gt]
  have hcast : ((W * H : Int) : ℚ) = (W : ℚ) * (H : ℚ) := by push_cast; ring
  rw [hcast] at hnq1 b2
  by_cases hgt : 1 < fr
  · simp only [hgt, decide_True, if_true]
    refine ⟨1, rfl, by norm_num, le_rfl, ?_⟩
    exact plan_arith s1 hnq1 (by norm_num : (0 : ℚ) < 1) s2 b2 c3 (by linarith)
  · simp only [hgt, decide_False]
    refine ⟨fr, by simp, d1, not_lt.mp hgt, ?_⟩
    exact plan_arith s1 hnq1 (by linarith) s2 b2 c3 d2

/-! ## Target dimensions and estimate -/

/-- Lines 45-46 and 129-130 for a factor as the planner produces it: the scaled dimension
is defined and does not exceed the source dimension. -/
theorem scaled_dim_spec {D : Int} {f n : ℚ} (hD : 0 < D) (hD' : D ≤ 2147483647)
    (hf0 : 1 / 1000 ≤ f) (hf1 : f ≤ 1) (hn : (D : ℚ) ≤ n) (hfn : f * f * n ≤ 6860) :
    ∃ a : ℚ, scaled_dim D (F32.fin f) = some ⌊a⌋ ∧ 0 ≤ a ∧ a ≤ (D : ℚ) ∧
      a ≤ (D : ℚ) * f * (1 + 1 / 1000000) := by
  have hDq : (1 : ℚ) ≤ (D : ℚ) := by exact_mod_cast hD
  have hDq' : (D : ℚ) ≤ 2147483647 := by exact_mod_cast hD'
  obtain ⟨D1, hD1, b2, b3⟩ := ofInt_bounds (n := D) (by omega) hD'
  have hprod_lo : 1 / 4294967296 ≤ D1 * f := by
    have : (1 / 2 : ℚ) * (1 / 1000) ≤ D1 * f :=
      mul_le_mul (by linarith) hf0 (by norm_num) (by linarith)
    linarith
  have hprod_hi : D1 * f ≤ 1000000000000 := by
    have : D1 * f ≤ 2200000000 * 1 := mul_le_mul (by linarith) hf1 (by linarith) (by norm_num)
    linarith
  obtain ⟨c1, c2, c3⟩ := round_bounds hprod_lo hprod_hi
  have ha0 : 0 ≤ roundQ (D1 * f) := roundQ_nonneg (le_trans (by norm_num) hprod_lo)
  have hrel : roundQ (D1 * f) ≤ (D : ℚ) * f * (1 + 1 / 1000000) := by
    have h1 : D1 * f ≤ (D : ℚ) * (1 + 1 / 16777216) * f :=
      mul_le_mul_of_nonneg_right b3 (by linarith)
    have h2 : 0 ≤ (D : ℚ) * f := by nlinarith
    generalize roundQ (D1 * f) = a at c3 ⊢
    nlinarith
  have hle : roundQ (D1 * f) ≤ (D : ℚ) := by
    by_cases hsmall : D ≤ 16777216
    · have hD1' : D1 = (D : ℚ) := by
        have := F32.ofInt_small hD.le hsmall
        rw [hD1] at this
        exact F32.fin.inj this
      rw [hD1']
      have h1 : (D : ℚ) * f ≤ (D : ℚ) := by nlinarith
      have h2 := roundQ_mono (by nlinarith : (0 : ℚ) ≤ (D : ℚ) * f) h1
      obtain ⟨k, rfl⟩ := Int.eq_ofNat_of_zero_le hD.le
      have h3 := roundQ_natCast k (by norm_num; omega)
      simp only [Int.cast_natCast] at h2 ⊢
      rw [h3] at h2
      exact h2
    · have hbig : (16777216 : ℚ) ≤ (D : ℚ) := by
        have : (16777216 : Int) ≤ D := by omega
        exact_mod_cast this
      have hf49 : f < 1 / 49 := by
        apply lt_of_sq_lt (by linarith) (by norm_num)
        have : f * f * 16777216 ≤ 6860 := by
          have : f * f * 16777216 ≤ f * f * n :=
            mul_le_mul_of_nonneg_left (by linarith) (by positivity)
          linarith
        linarith
      have : (D : ℚ) * f ≤ (D : ℚ) * (1 / 49) := mul_le_mul_of_nonneg_left hf49.le (by linarith)
      generalize roundQ (D1 * f) = a at hrel ⊢
      nlinarith
  refine ⟨roundQ (D1 * f), ?_, ha0, hle, hrel⟩
  unfold scaled_dim
  rw [hD1]
  simp only [F32.mul]
  rw [c1, F32.toInt_fin ha0 (by linarith)]

/-- Lines 114-130 on sources of at most `2 ^ 31 - 1` pixels. -/
theorem plan_spec {W H : Int} (hW : 0 < W) (hH : 0 < H) (hWH : W * H ≤ 2147483647) :
    ∃ (f : ℚ) (nw nh : Int), clamped_scale_factor W H = F32.fin f ∧ 0 < f ∧ f ≤ 1 ∧
      scaled_dim W (F32.fin f) = some nw ∧ scaled_dim H (F32.fin f) = some nh ∧
      0 ≤ nw ∧ nw ≤ W ∧ 0 ≤ nh ∧ nh ≤ H ∧ nw * nh ≤ 7600 ∧
      estimate_output_size W H (F32.fin f) = some (nw * nh * 25) ∧
      plan_scale_factor W H = some (F32.fin f) := by
  obtain ⟨f, hf, hf0, hf1, hfn⟩ := clamped_scale_factor_spec hW hH hWH
  have hWq : (1 : ℚ) ≤ (W : ℚ) := by exact_mod_cast hW
  have hHq : (1 : ℚ) ≤ (H : ℚ) := by exact_mod_cast hH
  have hW' : W ≤ 2147483647 := by nlinarith
  have hH' : H ≤ 2147483647 := by nlinarith
  obtain ⟨a, ha, ha0, ha1, ha2⟩ := scaled_dim_spec (n := (W : ℚ) * (H : ℚ)) hW hW' hf0 hf1
    (by nlinarith) hfn
  obtain ⟨b, hb, hb0, hb1, hb2⟩ := scaled_dim_spec (n := (W : ℚ) * (H : ℚ)) hH hH' hf0 hf1
    (by nlinarith) hfn
  have hA0 : 0 ≤ ⌊a⌋ := Int.floor_nonneg.mpr ha0
  have hB0 : 0 ≤ ⌊b⌋ := Int.floor_nonneg.mpr hb0
  have hA1 : ⌊a⌋ ≤ W := by
    have : (⌊a⌋ : ℚ) ≤ (W : ℚ) := (Int.floor_le a).trans ha1
    exact_mod_cast this
  have hB1 : ⌊b⌋ ≤ H := by
    have : (⌊b⌋ : ℚ) ≤ (H : ℚ) := (Int.floor_le b).trans hb1
    exact_mod_cast this
  have hAq0 : (0 : ℚ) ≤ (⌊a⌋ : ℚ) := by exact_mod_cast hA0
  have hBq0 : (0 : ℚ) ≤ (⌊b⌋ : ℚ) := by exact_mod_cast hB0
  have hprod : ⌊a⌋ * ⌊b⌋ ≤ 7600 := by
    have h1 : (⌊a⌋ : ℚ) * (⌊b⌋ : ℚ) ≤ a * b :=
      mul_le_mul (Int.floor_le a) (Int.floor_le b) hBq0 ha0
    have h2 : a * b ≤ (W : ℚ) * f * (1 + 1 / 1000000) * ((H : ℚ) * f * (1 + 1 / 1000000)) :=
      mul_le_mul ha2 hb2 hb0 (le_trans ha0 ha2)
    have h3 : (W : ℚ) * f * (1 + 1 / 1000000) * ((H : ℚ) * f * (1 + 1 / 1000000))
        = f * f * ((W : ℚ) * (H : ℚ)) * ((1 + 1 / 1000000) * (1 + 1 / 1000000)) := by ring
    have h4 : (⌊a⌋ : ℚ) * (⌊b⌋ : ℚ) ≤ 7600 := by
      rw [h3] at h2
      nlinarith
    exact_mod_cast h4
  have hprod0 : 0 ≤ ⌊a⌋ * ⌊b⌋ := mul_nonneg hA0 hB0
  have hest : estimate_output_size W H (F32.fin f) = some (⌊a⌋ * ⌊b⌋ * 25) := by
    unfold estimate_output_size
    rw [ha, hb]
    simp only [Option.bind_eq_bind, Option.some_bind]
    have hw : wrapInt (⌊a⌋ * ⌊b⌋) = ⌊a⌋ * ⌊b⌋ := wrapInt_eq (by omega) (by omega)
    rw [hw, wrapInt_eq (by omega) (by omega)]
  refine ⟨f, ⌊a⌋, ⌊b⌋, hf, by linarith, hf1, ha, hb, hA0, hA1, hB0, hB1, hprod, hest, ?_⟩
  unfold plan_scale_factor
  simp only [hf, hest, Option.bind_eq_bind, Option.some_bind]
  rw [if_neg]
  unfold MAX_OUTPUT_CHARS
  omega

/-! ## Error of the blend -/

/-- Absolute rounding error below `1024`. -/
theorem roundQ_abs_small {q : ℚ} (h0 : 0 ≤ q) (h : q < 1024) :
    |roundQ q - q| ≤ 1 / 32768 := by
  rcases eq_or_lt_of_le h0 with hz | hpos
  · subst hz; rw [roundQ_zero]; norm_num
  · have hb : binade q < 10 := binade_lt hpos (by norm_num; exact h)
    have hu : ulpExp q ≤ -14 := by unfold ulpExp; omega
    calc |roundQ q - q| ≤ (2 : ℚ) ^ ulpExp q / 2 := roundQ_err q
      _ ≤ (2 : ℚ) ^ (-14 : Int) / 2 := by
          apply div_le_div_of_nonneg_right (zpow_le_zpow_right₀ (by norm_num) hu) (by norm_num)
      _ = 1 / 32768 := by norm_num

theorem round_small {q : ℚ} (h0 : 0 ≤ q) (h : q < 1024) :
    ∃ r : ℚ, F32.round q = F32.fin r ∧ 0 ≤ r ∧ r - q ≤ 1 / 32768 ∧ q - r ≤ 1 / 32768 := by
  have h1 := roundQ_abs_small h0 h
  rw [abs_le] at h1
  exact ⟨roundQ q, F32.round_fin h0 (le_trans h.le (by norm_num)), roundQ_nonneg h0,
    by linarith [h1.2], by linarith [h1.1]⟩

/-- One blend `(1 - w) * p + w * q` of lines 26-28 in float arithmetic. -/
theorem lerp_stage {w p q : ℚ} (hw0 : 0 ≤ w) (hw1 : w ≤ 1) (hp0 : 0 ≤ p) (hp : p ≤ 256)
    (hq0 : 0 ≤ q) (hq : q ≤ 256) :
    ∃ t : ℚ, F32.add (F32.mul (F32.sub (F32.fin 1) (F32.fin w)) (F32.fin p))
        (F32.mul (F32.fin w) (F32.fin q)) = F32.fin t ∧ 0 ≤ t ∧
      t - ((1 - w) * p + w * q) ≤ 259 / 32768 ∧ ((1 - w) * p + w * q) - t ≤ 259 / 32768 := by
  obtain ⟨u, hu, hu0, hu1, hu2⟩ := round_small (q := 1 + -w) (by linarith) (by linarith)
  have hu_le : u ≤ 1 := by
    have h1 : F32.round (1 + -w) = F32.fin (roundQ (1 + -w)) :=
      F32.round_fin (by linarith) (by linarith [show (1 : ℚ) ≤ (2 : ℚ) ^ (100 : Int) by norm_num])
    rw [hu] at h1
    rw [F32.fin.inj h1]
    exact roundQ_le_one (by linarith) (by linarith)
  have hup0 : 0 ≤ u * p := mul_nonneg hu0 hp0
  have hup1 : u * p ≤ 256 := by nlinarith
  obtain ⟨p1, hp1, hp10, hp11, hp12⟩ := round_small hup0 (by linarith)
  have hwq0 : 0 ≤ w * q := mul_nonneg hw0 hq0
  have hwq1 : w * q ≤ 256 := by nlinarith
  obtain ⟨p2, hp2, hp20, hp21, hp22⟩ := round_small hwq0 (by linarith)
  obtain ⟨t, ht, ht0, ht1, ht2⟩ := round_small (q := p1 + p2) (by linarith) (by linarith)
  refine ⟨t, ?_, ht0, ?_, ?_⟩
  · simp only [F32.sub, F32.neg, F32.add, hu, F32.mul, hp1, hp2, ht]
  · have : u * p - (1 - w) * p ≤ 1 / 32768 * 256 := by nlinarith
    linarith
  · have : (1 - w) * p - u * p ≤ 1 / 32768 * 256 := by nlinarith
    linarith

theorem blend4_bounds {wx wy a b c d lo hi : ℚ} (hx0 : 0 ≤ wx) (hx1 : wx ≤ 1)
    (hy0 : 0 ≤ wy) (hy1 : wy ≤ 1) (ha : lo ≤ a ∧ a ≤ hi) (hb : lo ≤ b ∧ b ≤ hi)
    (hc : lo ≤ c ∧ c ≤ hi) (hd : lo ≤ d ∧ d ≤ hi) :
    lo ≤ blend4 wx wy a b c d ∧ blend4 wx wy a b c d ≤ hi := by
  have w1 : 0 ≤ (1 - wx) * (1 - wy) := mul_nonneg (by linarith) (by linarith)
  have w2 : 0 ≤ wx * (1 - wy) := mul_nonneg hx0 (by linarith)
  have w3 : 0 ≤ (1 - wx) * wy := mul_nonneg (by linarith) hy0
  have w4 : 0 ≤ wx * wy := mul_nonneg hx0 hy0
  have e1 : blend4 wx wy a b c d - lo = (1 - wx) * (1 - wy) * (a - lo) + wx * (1 - wy) * (b - lo)
      + (1 - wx) * wy * (c - lo) + wx * wy * (d - lo) := by unfold blend4; ring
  have e2 : hi - blend4 wx wy a b c d = (1 - wx) * (1 - wy) * (hi - a)
      + wx * (1 - wy) * (hi - b) + (1 - wx) * wy * (hi - c) + wx * wy * (hi - d) := by
    unfold blend4; ring
  have p1 : 0 ≤ blend4 wx wy a b c d - lo := by
    rw [e1]
    have := mul_nonneg w1 (show 0 ≤ a - lo by linarith)
    have := mul_nonneg w2 (show 0 ≤ b - lo by linarith)
    have := mul_nonneg w3 (show 0 ≤ c - lo by linarith)
    have := mul_nonneg w4 (show 0 ≤ d - lo by linarith)
    linarith
  have p2 : 0 ≤ hi - blend4 wx wy a b c d := by
    rw [e2]
    have := mul_nonneg w1 (show 0 ≤ hi - a by linarith)
    have := mul_nonneg w2 (show 0 ≤ hi - b by linarith)
    have := mul_nonneg w3 (show 0 ≤ hi - c by linarith)
    have := mul_nonneg w4 (show 0 ≤ hi - d by linarith)
    linarith
  constructor <;> linarith

/-- Lines 26-28 stay within `1 / 50` of the exact four-weight blend. -/
theorem bilinear_spec {wx wy : ℚ} {a b c d : Nat} (hx0 : 0 ≤ wx) (hx1 : wx ≤ 1)
    (hy0 : 0 ≤ wy) (hy1 : wy ≤ 1) (ha : a ≤ 255) (hb : b ≤ 255) (hc : c ≤ 255)
    (hd : d ≤ 255) :
    ∃ v : ℚ, bilinear (F32.fin wx) (F32.fin wy) a b c d = F32.fin v ∧ 0 ≤ v ∧
      v - blend4 wx wy a b c d ≤ 1 / 50 ∧ blend4 wx wy a b c d - v ≤ 1 / 50 := by
  have haq : (a : ℚ) ≤ 255 := by exact_mod_cast ha
  have hbq : (b : ℚ) ≤ 255 := by exact_mod_cast hb
  have hcq : (c : ℚ) ≤ 255 := by exact_mod_cast hc
  have hdq : (d : ℚ) ≤ 255 := by exact_mod_cast hd
  have ha0 : (0 : ℚ) ≤ (a : ℚ) := by positivity
  have hb0 : (0 : ℚ) ≤ (b : ℚ) := by positivity
  have hc0 : (0 : ℚ) ≤ (c : ℚ) := by positivity
  have hd0 : (0 : ℚ) ≤ (d : ℚ) := by positivity
  obtain ⟨t, ht, ht0, ht1, ht2⟩ := lerp_stage hx0 hx1 ha0 (by linarith) hb0 (by linarith)
  obtain ⟨u, hu, hu0, hu1, hu2⟩ := lerp_stage hx0 hx1 hc0 (by linarith) hd0 (by linarith)
  have hT : (1 - wx) * (a : ℚ) + wx * (b : ℚ) ≤ 255 := by nlinarith
  have hU : (1 - wx) * (c : ℚ) + wx * (d : ℚ) ≤ 255 := by nlinarith
  obtain ⟨v, hv, hv0, hv1, hv2⟩ := lerp_stage hy0 hy1 ht0 (by linarith) hu0 (by linarith)
  have h1 : F32.ofInt 1 = F32.fin 1 := by
    have := F32.ofInt_natCast (n := 1) (by norm_num); simpa using this
  refine ⟨v, ?_, hv0, ?_, ?_⟩
  · unfold bilinear
    simp only [h1, F32.ofInt_natCast (show a ≤ 16777216 by omega),
      F32.ofInt_natCast (show b ≤ 16777216 by omega),
      F32.ofInt_natCast (show c ≤ 16777216 by omega),
      F32.ofInt_natCast (show d ≤ 16777216 by omega), ht, hu, hv]
  · have e : blend4 wx wy a b c d = (1 - wy) * ((1 - wx) * (a : ℚ) + wx * (b : ℚ))
        + wy * ((1 - wx) * (c : ℚ) + wx * (d : ℚ)) := by unfold blend4; ring
    rw [e]
    have := mul_nonneg (show 0 ≤ 1 - wy by linarith)
      (show 0 ≤ 259 / 32768 - (t - ((1 - wx) * (a : ℚ) + wx * (b : ℚ))) by linarith)
    have := mul_nonneg hy0
      (show 0 ≤ 259 / 32768 - (u - ((1 - wx) * (c : ℚ) + wx * (d : ℚ))) by linarith)
    linarith
  · have e : blend4 wx wy a b c d = (1 - wy) * ((1 - wx) * (a : ℚ) + wx * (b : ℚ))
        + wy * ((1 - wx) * (c : ℚ) + wx * (d : ℚ)) := by unfold blend4; ring
    rw [e]
    have := mul_nonneg (show 0 ≤ 1 - wy by linarith)
      (show 0 ≤ 259 / 32768 - (((1 - wx) * (a : ℚ) + wx * (b : ℚ)) - t) by linarith)
    have := mul_nonneg hy0
      (show 0 ≤ 259 / 32768 - (((1 - wx) * (c : ℚ) + wx * (d : ℚ)) - u) by linarith)
    linarith

/-! ## One output pixel -/

/-- Lines 13-22 on the bounded domain, with the indices as natural numbers: the source
position `s` is a finite float, `x0 = floor(s)`, `x1 = min(x0 + 1, old - 1)` and the weight is
exactly `s - floor(s)`. -/
theorem sample_bounded_nat {x old new : Nat} (hold : 0 < old) (hold' : old ≤ 16777216)
    (hnew' : new ≤ 8388608) (hx : x < new) :
    ∃ (x0 x1 : Nat) (s : ℚ), sample_indices x old new = some ((x0 : Int), (x1 : Int)) ∧
      x0 ≤ x1 ∧ x1 < old ∧ (x0 + 1 = old → x1 = x0) ∧
      sample_weight x old new = some (F32.fin (s - (⌊s⌋ : ℚ))) ∧
      0 ≤ s - (⌊s⌋ : ℚ) ∧ s - (⌊s⌋ : ℚ) ≤ 1 ∧
      src_pos x old new = F32.fin s ∧ ⌊s⌋ = (x0 : Int) ∧
      min ((x0 : Int) + 1) ((old : Int) - 1) = (x1 : Int) := by
  obtain ⟨s, hs, hs0, hs1, hi, hw⟩ := @sample_bounded (x : Int) (old : Int)
    (new : Int) (by omega) (by omega) (by omega) (by omega) (by omega) (by omega)
  have hfl0 : 0 ≤ ⌊s⌋ := Int.floor_nonneg.mpr hs0
  have hfl1 : ⌊s⌋ < (old : Int) := by rw [Int.floor_lt]; exact_mod_cast hs1
  obtain ⟨k, hk⟩ := Int.eq_ofNat_of_zero_le hfl0
  have hx1 : min ((k : Int) + 1) ((old : Int) - 1)
      = (((min ((k : Int) + 1) ((old : Int) - 1)).toNat : Nat) : Int) := by omega
  refine ⟨k, (min ((k : Int) + 1) ((old : Int) - 1)).toNat, s, ?_, by omega, by omega,
    by omega, hw, by linarith [Int.floor_le s], by linarith [Int.lt_floor_add_one s], hs, hk,
    hx1⟩
  rw [hi, hk, ← hx1]

/-- The read `S(x, y)` of the specification at an index inside the source rows. -/
theorem get_sample (input : Buffer) {x y c : Nat} (hy : y < input.rows)
    (hx : 3 * x + c < input.rowBytes) :
    input.get (y : Int) ((x : Int) * 3 + (c : Int)) = some (input.data y (3 * x + c)) := by
  have e : (x : Int) * 3 + (c : Int) = ((3 * x + c : Nat) : Int) := by push_cast; ring
  rw [e, Buffer.get_natCast input hy hx]

/-- Lines 13-28 for one channel of one output pixel on the bounded domain. -/
theorem resize_pixel_spec (input : Buffer) (W H W' H' : Nat) (hW : 0 < W)
    (hW24 : W ≤ 16777216) (hH : 0 < H) (hH24 : H ≤ 16777216) (hW' : W' ≤ 8388608)
    (hH' : H' ≤ 8388608) (hrows : input.rows = H) (hbytes : input.rowBytes = 3 * W)
    (hbyte : ∀ y i, input.data y i ≤ 255) (y x c : Nat) (hy : y < H') (hx : x < W')
    (hc : c < 3) :
    ∃ (x0 x1 y0 y1 : Nat) (wx wy v : ℚ),
      sample_indices x W W' = some ((x0 : Int), (x1 : Int)) ∧
      sample_indices y H H' = some ((y0 : Int), (y1 : Int)) ∧
      x0 ≤ x1 ∧ x1 < W ∧ (x0 + 1 = W → x1 = x0) ∧
      y0 ≤ y1 ∧ y1 < H ∧ (y0 + 1 = H → y1 = y0) ∧
      neighbours input W H W' H' y x c = some (input.data y0 (3 * x0 + c),
        input.data y0 (3 * x1 + c), input.data y1 (3 * x0 + c), input.data y1 (3 * x1 + c)) ∧
      resize_blend input W H W' H' y x c = some (F32.fin v) ∧
      reference_value_f32 input W H W' H' y x c = some ⌊blend4 wx wy
        (input.data y0 (3 * x0 + c)) (input.data y0 (3 * x1 + c))
        (input.data y1 (3 * x0 + c)) (input.data y1 (3 * x1 + c))⌋ ∧
      0 ≤ wx ∧ wx ≤ 1 ∧ 0 ≤ wy ∧ wy ≤ 1 ∧ 0 ≤ v ∧
      v - blend4 wx wy (input.data y0 (3 * x0 + c)) (input.data y0 (3 * x1 + c))
        (input.data y1 (3 * x0 + c)) (input.data y1 (3 * x1 + c)) ≤ 1 / 50 ∧
      blend4 wx wy (input.data y0 (3 * x0 + c)) (input.data y0 (3 * x1 + c))
        (input.data y1 (3 * x0 + c)) (input.data y1 (3 * x1 + c)) - v ≤ 1 / 50 ∧
      resize_value input W H W' H' y x c = some ⌊v⌋.toNat ∧ ⌊v⌋ ≤ 255 := by
  obtain ⟨x0, x1, sx, hxi, hx01, hx1, hxe, hxw, hwx0, hwx1, hsx, hfx, hmx⟩ :=
    sample_bounded_nat hW hW24 hW' hx
  obtain ⟨y0, y1, sy, hyi, hy01, hy1, hye, hyw, hwy0, hwy1, hsy, hfy, hmy⟩ :=
    sample_bounded_nat hH hH24 hH' hy
  obtain ⟨v, hv, hv0, hv1, hv2⟩ := bilinear_spec hwx0 hwx1 hwy0 hwy1
    (hbyte y0 (3 * x0 + c)) (hbyte y0 (3 * x1 + c)) (hbyte y1 (3 * x0 + c))
    (hbyte y1 (3 * x1 + c))
  have hnb : neighbours input W H W' H' y x c = some (input.data y0 (3 * x0 + c),
      input.data y0 (3 * x1 + c), input.data y1 (3 * x0 + c), input.data y1 (3 * x1 + c)) := by
    unfold neighbours
    rw [hxi, hyi]
    simp only [Option.bind_eq_bind, Option.some_bind]
    rw [offset_eq (x := x0) (c := c) (by omega), offset_eq (x := x1) (c := c) (by omega),
      Buffer.get_natCast input (by omega) (by omega),
      Buffer.get_natCast input (by omega) (by omega),
      Buffer.get_natCast input (by omega) (by omega),
      Buffer.get_natCast input (by omega) (by omega)]
    simp only [Option.some_bind]
  have hbl : resize_blend input W H W' H' y x c = some (F32.fin v) := by
    unfold resize_blend
    rw [hxw, hyw, hnb]
    simp only [Option.bind_eq_bind, Option.some_bind, hv]
  have href : reference_value_f32 input W H W' H' y x c = some ⌊blend4 (sx - (⌊sx⌋ : ℚ))
      (sy - (⌊sy⌋ : ℚ)) (input.data y0 (3 * x0 + c)) (input.data y0 (3 * x1 + c))
      (input.data y1 (3 * x0 + c)) (input.data y1 (3 * x1 + c))⌋ := by
    unfold src_pos at hsx hsy
    unfold reference_value_f32
    rw [hsx, hsy]
    simp only [F32.toRat, Option.bind_eq_bind, Option.some_bind, reference_from]
    rw [hfx, hfy, hmx, hmy, get_sample input (by omega) (by omega),
      get_sample input (by omega) (by omega), get_sample input (by omega) (by omega),
      get_sample input (by omega) (by omega)]
    simp only [Option.some_bind]
  have hq : ∀ yy i, (0 : ℚ) ≤ (input.data yy i : ℚ) ∧ (input.data yy i : ℚ) ≤ 255 := by
    intro yy i
    exact ⟨by positivity, by exact_mod_cast hbyte yy i⟩
  have hb4 := blend4_bounds hwx0 hwx1 hwy0 hwy1 (hq y0 (3 * x0 + c)) (hq y0 (3 * x1 + c))
    (hq y1 (3 * x0 + c)) (hq y1 (3 * x1 + c))
  have hfl0 : 0 ≤ ⌊v⌋ := Int.floor_nonneg.mpr hv0
  have hfl1 : ⌊v⌋ ≤ 255 := by
    have : ⌊v⌋ < 256 := by rw [Int.floor_lt]; push_cast; linarith [hb4.2]
    omega
  refine ⟨x0, x1, y0, y1, sx - (⌊sx⌋ : ℚ), sy - (⌊sy⌋ : ℚ), v, hxi, hyi, hx01, hx1, hxe, hy01,
    hy1, hye, hnb, hbl, href, hwx0, hwx1, hwy0, hwy1, hv0, hv1, hv2, ?_, hfl1⟩
  unfold resize_value
  rw [hbl]
  simp only [Option.some_bind, F32.toByte]
  rw [truncQ_of_nonneg hv0, if_pos ⟨hfl0, hfl1⟩]

/-! ## The encoder -/

theorem toString_natCast (n : Nat) : toString ((n : Nat) : Int) = toString n := rfl

theorem intercalate_go_append (s acc a : String) (l : List String) :
    String.intercalate.go acc s (l ++ [a]) = String.intercalate.go acc s l ++ s ++ a := by
  induction l generalizing acc with
  | nil => simp [String.intercalate.go]
  | cons b bs ih => simp [String.intercalate.go, ih]

theorem intercalate_append_singleton (s a : String) (l : List String) :
    String.intercalate s (l ++ [a])
      = if l = [] then a else String.intercalate s l ++ s ++ a := by
  cases l with
  | nil => simp [String.intercalate, String.intercalate.go]
  | cons b bs => simp [String.intercalate, intercalate_go_append]

theorem encode_spec_eq (px : Nat → Nat → Nat → Nat) (w h : Nat) :
    encode_spec px w h = "Image Data (RGB):" ++ "\n" ++
      String.intercalate ";" (recordsUpTo px w h h) ++ "???" := rfl

theorem recordsUpTo_succ (px : Nat → Nat → Nat → Nat) (w h y : Nat) :
    recordsUpTo px w h (y + 1)
      = recordsUpTo px w h y ++ (List.range w).map fun x => record px h y x := by
  unfold recordsUpTo
  rw [List.range_succ, List.flatMap_append]
  simp [List.flatMap]

theorem recordsUpTo_length (px : Nat → Nat → Nat → Nat) (w h y : Nat) :
    (recordsUpTo px w h y).length = y * w := by
  induction y with
  | zero => simp [recordsUpTo]
  | succ y ih => rw [recordsUpTo_succ, List.length_append, ih]; simp; ring

theorem written_snoc (n : Nat) (l : List String) (r : String) (hl : l.length < n) :
    written n (l ++ [r])
      = written n l ++ r ++ (if l.length + 1 = n then "" else ";") := by
  unfold written
  rw [intercalate_append_singleton]
  have hne : l.length ≠ n := by omega
  by_cases hnil : l = []
  · subst hnil
    simp [String.intercalate, String.append_assoc]
  · have hlen : l.length ≠ 0 := by
      intro h; exact hnil (List.length_eq_zero.mp h)
    simp only [hnil, if_false, List.length_append, List.length_singleton, hlen, hne,
      false_or, Nat.add_eq_zero, and_false, one_ne_zero]
    simp only [String.append_assoc]

section enc
variable (resized : Buffer) (w h : Nat)

theorem last_index_iff {y j : Nat} (hy : y < h) (hj : j < w) :
    y * w + j + 1 = h * w ↔ (y = h - 1 ∧ j = w - 1) := by
  constructor
  · intro heq
    by_cases hy1 : y = h - 1
    · refine ⟨hy1, ?_⟩
      have : h * w = y * w + w := by
        have : h = y + 1 := by omega
        rw [this]; ring
      omega
    · exfalso
      have h1 : (y + 1) * w ≤ (h - 1) * w := Nat.mul_le_mul_right w (by omega)
      have h2 : (h - 1) * w + w = h * w := by
        have : h = (h - 1) + 1 := by omega
        conv_rhs => rw [this]
        ring
      have h3 : (y + 1) * w = y * w + w := by ring
      omega
  · rintro ⟨rfl, rfl⟩
    have h2 : (h - 1) * w + w = h * w := by
      have : h = (h - 1) + 1 := by omega
      conv_rhs => rw [this]
      ring
    omega

theorem encode_pixel_step (hrows : h ≤ resized.rows) (hbytes : 3 * w ≤ resized.rowBytes)
    (hw : 3 * w ≤ 2147483647) (hh : h ≤ 2147483647) (y j : Nat) (hy : y < h) (hj : j < w)
    (out : String) :
    encode_pixel resized w h y j out
      = some (out ++ record (fun y x c => resized.data y (3 * x + c)) h y j
          ++ (if y * w + j + 1 = h * w then "" else ";")) := by
  unfold encode_pixel
  have g0 : resized.get (y : Int) (3 * (j : Int)) = some (resized.data y (3 * j + 0)) := by
    have := Buffer.get_natCast resized (y := y) (i := 3 * j) (by omega) (by omega)
    simpa using this
  have g1 : resized.get (y : Int) (3 * (j : Int) + 1) = some (resized.data y (3 * j + 1)) := by
    have := Buffer.get_natCast resized (y := y) (i := 3 * j + 1) (by omega) (by omega)
    simpa using this
  have g2 : resized.get (y : Int) (3 * (j : Int) + 2) = some (resized.data y (3 * j + 2)) := by
    have := Buffer.get_natCast resized (y := y) (i := 3 * j + 2) (by omega) (by omega)
    simpa using this
  have e1 : wrapInt ((h : Int) - 1) = (h : Int) - 1 := wrapInt_eq (by omega) (by omega)
  have e2 : wrapInt ((h : Int) - 1 - (y : Int)) = ((h - 1 - y : Nat) : Int) := by
    rw [wrapInt_eq (by omega) (by omega)]; omega
  have e3 : wrapInt ((w : Int) - 1) = (w : Int) - 1 := wrapInt_eq (by omega) (by omega)
  have e4 : wrapInt (((w : Int) - 1) * 3) = ((w : Int) - 1) * 3 :=
    wrapInt_eq (by omega) (by omega)
  have e5 : 3 * (j : Int) / 3 = ((j : Nat) : Int) := by omega
  have hlast : ((y : Int) = (h : Int) - 1 ∧ 3 * (j : Int) = ((w : Int) - 1) * 3)
      ↔ y * w + j + 1 = h * w := by
    rw [last_index_iff w h hy hj]
    omega
  simp only [g0, g1, g2, e1, e2, e3, e4, e5, Option.bind_eq_bind, Option.some_bind,
    toString_natCast, hlast, record]
  by_cases hl : y * w + j + 1 = h * w
  · simp only [hl, not_true_eq_false, if_false, if_true, String.append_empty,
      String.append_assoc]
  · simp only [hl, not_false_eq_true, if_true, if_false, String.append_assoc]

theorem encode_row_step (hrows : h ≤ resized.rows) (hbytes : 3 * w ≤ resized.rowBytes)
    (hw : 3 * w ≤ 2147483647) (hh : h ≤ 2147483647) (y : Nat) (hy : y < h) :
    encode_row resized w h y
        (written (h * w) (recordsUpTo (fun y x c => resized.data y (3 * x + c)) w h y))
      = some (written (h * w)
          (recordsUpTo (fun y x c => resized.data y (3 * x + c)) w h (y + 1))) := by
  unfold encode_row
  have hn : ((wrapInt ((w : Int) * 3)).toNat + 2) / 3 = w := by
    rw [wrapInt_eq (by omega) (by omega)]; omega
  rw [hn]
  obtain ⟨out, hout, hP⟩ := forLoop_range_inv (encode_pixel resized w h y)
    (fun j out => out = written (h * w)
      (recordsUpTo (fun y x c => resized.data y (3 * x + c)) w h y
        ++ (List.range j).map fun x => record (fun y x c => resized.data y (3 * x + c)) h y x))
    w (written (h * w) (recordsUpTo (fun y x c => resized.data y (3 * x + c)) w h y))
    (by simp)
    (by
      intro j hj s hs
      refine ⟨_, encode_pixel_step resized w h hrows hbytes hw hh y j hy hj s, ?_⟩
      dsimp only
      rw [hs, List.range_succ, List.map_append, ← List.append_assoc, List.map_singleton]
      have hlen : (recordsUpTo (fun y x c => resized.data y (3 * x + c)) w h y
          ++ (List.range j).map fun x =>
            record (fun y x c => resized.data y (3 * x + c)) h y x).length = y * w + j := by
        simp [recordsUpTo_length]
      have hlt : y * w + j < h * w := by
        have h1 : (y + 1) * w ≤ h * w := Nat.mul_le_mul_right w (by omega)
        have h3 : (y + 1) * w = y * w + w := by ring
        omega
      rw [written_snoc _ _ _ (by rw [hlen]; exact hlt), hlen])
  rw [hout, hP, recordsUpTo_succ]

/-- Lines 155-169 write the text of the specification. -/
theorem encode_eq_spec (hrows : h ≤ resized.rows) (hbytes : 3 * w ≤ resized.rowBytes)
    (hw : 3 * w ≤ 2147483647) (hh : h ≤ 2147483647) :
    encode resized w h = some (encode_spec (fun y x c => resized.data y (3 * x + c)) w h) := by
  unfold encode
  rw [Int.toNat_ofNat]
  obtain ⟨out, hout, hP⟩ := forLoop_range_inv (encode_row resized w h)
    (fun y out => out = written (h * w)
      (recordsUpTo (fun y x c => resized.data y (3 * x + c)) w h y))
    h ("Image Data (RGB):" ++ "\n") (by simp [written, recordsUpTo, String.intercalate])
    (by
      intro y hy s hs
      exact ⟨_, hs ▸ encode_row_step resized w h hrows hbytes hw hh y hy, rfl⟩)
  rw [hout, hP, encode_spec_eq]
  simp only [Option.map_some', written, recordsUpTo_length, or_true, if_true,
    String.append_empty]

end enc

/-! ## Runs of `resize_image` that finish -/

/-- Invariant rule for a counted loop that is known to finish. -/
theorem forLoop_range_post {σ : Type} (body : Int → σ → Option σ) (P : Nat → σ → Prop) :
    ∀ (n : Nat) (s0 s' : σ), P 0 s0 →
      (∀ i, i < n → ∀ s s1, P i s → body (i : Int) s = some s1 → P (i + 1) s1) →
      forLoop body (List.range n) s0 = some s' → P n s' := by
  intro n
  induction n with
  | zero =>
    intro s0 s' h0 _ hrun
    simp only [List.range_zero, forLoop, Option.some.injEq] at hrun
    exact hrun ▸ h0
  | succ n ih =>
    intro s0 s' h0 hstep hrun
    rw [List.range_succ, forLoop_append] at hrun
    cases h1 : forLoop body (List.range n) s0 with
    | none => rw [h1] at hrun; simp at hrun
    | some s1 =>
      rw [h1] at hrun
      simp only [Option.some_bind, forLoop] at hrun
      cases h2 : body (n : Int) s1 with
      | none => rw [h2] at hrun; simp at hrun
      | some s2 =>
        rw [h2] at hrun
        simp only [Option.some_bind, Option.some.injEq] at hrun
        have hP1 := ih s0 s1 h0 (fun i hi s t hs ht => hstep i (by omega) s t hs ht) h1
        exact hrun ▸ hstep n (by omega) s1 s2 hP1 h2

section post
variable (input : Buffer) (ow oh : Int) (nw nh : Nat)

theorem resize_channel_post (hsmall : 3 * nw ≤ 2147483647) (y x c : Nat) (hx : x < nw)
    (hc : c < 3) (st st' : ResizeState) (hinv : ResizePost input ow oh nw nh y x c st)
    (hrun : resize_channel input ow oh nw nh y x c st = some st') :
    ResizePost input ow oh nw nh y x (c + 1) st' := by
  obtain ⟨h3, h4, h5⟩ := hinv
  unfold resize_channel at hrun
  have hoff : offset (x : Int) (c : Int) = ((3 * x + c : Nat) : Int) := offset_eq (by omega)
  cases hv : resize_value input ow oh nw nh y x c with
  | none => rw [hv] at hrun; simp at hrun
  | some v =>
    rw [hv] at hrun
    simp only [Option.bind_eq_bind, Option.some_bind, Buffer.set] at hrun
    split_ifs at hrun with hcond
    · simp only [Option.some_bind, Option.some.injEq] at hrun
      subst hrun
      refine ⟨?_, ?_, ?_⟩
      · intro y2 x2 c2 hy2 hx2 hc2
        simp only [hoff, Int.toNat_ofNat]
        rw [if_neg (by omega)]
        exact h3 y2 x2 c2 hy2 hx2 hc2
      · intro x2 c2 hx2 hc2
        simp only [hoff, Int.toNat_ofNat]
        rw [if_neg (by omega)]
        exact h4 x2 c2 hx2 hc2
      · intro c2 hc2
        simp only [hoff, Int.toNat_ofNat]
        by_cases hcc : c2 = c
        · subst hcc; simpa using hv
        · rw [if_neg (by omega)]
          exact h5 c2 (by omega)
    · simp at hrun

theorem resize_pixel_post (hsmall : 3 * nw ≤ 2147483647) (y x : Nat) (hx : x < nw)
    (st st' : ResizeState) (hinv : ResizePost input ow oh nw nh y x 0 st)
    (hrun : resize_pixel input ow oh nw nh y x st = some st') :
    ResizePost input ow oh nw nh y (x + 1) 0 st' := by
  unfold resize_pixel at hrun
  obtain ⟨h3, h4, h5⟩ := forLoop_range_post (resize_channel input ow oh nw nh y x)
    (fun c st => ResizePost input ow oh nw nh y x c st) 3
    { st with divisions := st.divisions + 2 } st' hinv
    (fun c hc s s1 hs h1 => resize_channel_post input ow oh nw nh hsmall y x c hx hc s s1 hs h1)
    hrun
  refine ⟨h3, ?_, ?_⟩
  · intro x2 c2 hx2 hc2
    by_cases hxx : x2 = x
    · subst hxx; exact h5 c2 hc2
    · exact h4 x2 c2 (by omega) hc2
  · intro c2 hc2; omega

theorem resize_row_post (hsmall : 3 * nw ≤ 2147483647) (y : Nat)
    (st st' : ResizeState) (hinv : ResizePost input ow oh nw nh y 0 0 st)
    (hrun : resize_row input ow oh nw nh y st = some st') :
    ResizePost input ow oh nw nh (y + 1) 0 0 st' := by
  unfold resize_row at hrun
  rw [Int.toNat_ofNat] at hrun
  obtain ⟨h3, h4, h5⟩ := forLoop_range_post (resize_pixel input ow oh nw nh y)
    (fun x st => ResizePost input ow oh nw nh y x 0 st) nw st st' hinv
    (fun x hx s s1 hs h1 => resize_pixel_post input ow oh nw nh hsmall y x hx s s1 hs h1)
    hrun
  refine ⟨?_, ?_, ?_⟩
  · intro y2 x2 c2 hy2 hx2 hc2
    by_cases hyy : y2 = y
    · subst hyy; exact h4 x2 c2 hx2 hc2
    · exact h3 y2 x2 c2 (by omega) hx2 hc2
  · intro x2 c2 hx2; omega
  · intro c2 hc2; omega

/-- Whenever `resize_image` finishes, every output cell holds the value of lines 13-28. -/
theorem resize_image_post (st0 st : ResizeState) (hsmall : 3 * nw ≤ 2147483647)
    (hrun : resize_image input st0 ow oh nw nh = some st) :
    ∀ y x c : Nat, y < nh → x < nw → c < 3 →
      resize_value input ow oh nw nh y x c = some (st.output.data y (3 * x + c)) := by
  unfold resize_image at hrun
  rw [Int.toNat_ofNat] at hrun
  obtain ⟨h3, _, _⟩ := forLoop_range_post (resize_row input ow oh nw nh)
    (fun y st => ResizePost input ow oh nw nh y 0 0 st) nh st0 st
    ⟨fun _ _ _ h => by omega, fun _ _ h => by omega, fun _ h => by omega⟩
    (fun y _ s s1 hs h1 => resize_row_post input ow oh nw nh hsmall y s s1 hs h1)
    hrun
  exact h3

end post

/-! ## Length of the encoded text -/

theorem recordsUpTo_congr (px px' : Nat → Nat → Nat → Nat) (w h : Nat)
    (hpx : ∀ y x c, y < h → x < w → c < 3 → px y x c = px' y x c) :
    ∀ y, y ≤ h → recordsUpTo px w h y = recordsUpTo px' w h y := by
  intro y
  induction y with
  | zero => intro _; rfl
  | succ y ih =>
    intro hy
    rw [recordsUpTo_succ, recordsUpTo_succ, ih (by omega)]
    congr 1
    apply List.map_congr_left
    intro x hx
    rw [List.mem_range] at hx
    unfold record
    rw [hpx y x 0 (by omega) hx (by omega), hpx y x 1 (by omega) hx (by omega),
      hpx y x 2 (by omega) hx (by omega)]

theorem encode_spec_congr (px px' : Nat → Nat → Nat → Nat) (w h : Nat)
    (hpx : ∀ y x c, y < h → x < w → c < 3 → px y x c = px' y x c) :
    encode_spec px w h = encode_spec px' w h := by
  rw [encode_spec_eq, encode_spec_eq, recordsUpTo_congr px px' w h hpx h le_rfl]

theorem intercalate_go_length (s acc : String) (l : List String) :
    (String.intercalate.go acc s l).length
      = acc.length + (l.map String.length).sum + s.length * l.length := by
  induction l generalizing acc with
  | nil => simp [String.intercalate.go]
  | cons b bs ih =>
    simp only [String.intercalate.go, ih, String.length_append, List.map_cons, List.sum_cons,
      List.length_cons]
    ring

theorem intercalate_length (s : String) (l : List String) (hl : l ≠ []) :
    (String.intercalate s l).length + s.length
      = (l.map String.length).sum + s.length * l.length := by
  cases l with
  | nil => exact absurd rfl hl
  | cons a as =>
    simp only [String.intercalate, intercalate_go_length, List.map_cons, List.sum_cons,
      List.length_cons]
    ring

theorem recordsUpTo_sum (px : Nat → Nat → Nat → Nat) (w h y : Nat) :
    ((recordsUpTo px w h y).map String.length).sum
      = ((List.range y).map fun y' =>
          ((List.range w).map fun x => (record px h y' x).length).sum).sum := by
  induction y with
  | zero => simp [recordsUpTo]
  | succ y ih =>
    rw [recordsUpTo_succ, List.map_append, List.sum_append, ih, List.range_succ,
      List.map_append, List.sum_append, List.map_map]
    simp only [List.map_cons, List.map_nil, List.sum_cons, List.sum_nil, add_zero]
    rfl

theorem digits_lt_100 : ∀ n, n < 100 → (toString n).length = if n < 10 then 1 else 2 := by
  decide

theorem record_white_length (y x : Nat) (hy : y < 82) (hx : x < 82) :
    (record (fun _ _ _ => 255) 82 y x).length
      = 24 + (if 81 - y < 10 then 1 else 2) + (if x < 10 then 1 else 2) := by
  unfold record
  simp only [String.length_append]
  rw [digits_lt_100 (82 - 1 - y) (by omega), digits_lt_100 x (by omega)]
  have h1 : (toString 255).length = 3 := by decide
  have h2 : "14,0,0,".length = 7 := by decide
  have h3 : ",".length = 1 := by decide
  have h4 : "+".length = 1 := by decide
  have h5 : "+2+0".length = 4 := by decide
  rw [h1, h2, h3, h4, h5]
  have : 82 - 1 - y = 81 - y := by omega
  rw [this]
  ring

set_option maxRecDepth 100000 in
theorem white_sum : ((List.range 82).map fun y => ((List.range 82).map fun x =>
    24 + (if 81 - y < 10 then 1 else 2) + (if x < 10 then 1 else 2)).sum).sum = 186632 := by
  decide!

/-- The text for an 82 by 82 all-white grid has 193376 characters. -/
theorem encode_spec_white_length : (encode_spec (fun _ _ _ => 255) 82 82).length = 193376 := by
  rw [encode_spec_eq]
  simp only [String.length_append]
  have hne : recordsUpTo (fun _ _ _ => 255) 82 82 82 ≠ [] := by
    intro h
    have := recordsUpTo_length (fun _ _ _ => 255) 82 82 82
    rw [h] at this
    simp at this
  have h1 := intercalate_length ";" _ hne
  rw [recordsUpTo_sum, recordsUpTo_length] at h1
  have h2 : ((List.range 82).map fun y' =>
      ((List.range 82).map fun x => (record (fun _ _ _ => 255) 82 y' x).length).sum)
      = ((List.range 82).map fun y => ((List.range 82).map fun x =>
          24 + (if 81 - y < 10 then 1 else 2) + (if x < 10 then 1 else 2)).sum) := by
    apply List.map_congr_left
    intro y hy
    rw [List.mem_range] at hy
    congr 1
    apply List.map_congr_left
    intro x hx
    rw [List.mem_range] at hx
    exact record_white_length y x hy hx
  rw [h2, white_sum] at h1
  have h3 : ";".length = 1 := by decide
  have h4 : "Image Data (RGB):".length = 17 := by decide
  have h5 : "\n".length = 1 := by decide
  have h6 : "???".length = 3 := by decide
  rw [h3] at h1
  rw [h4, h5, h6]
  omega

/-! ## Facts about the sample inputs -/

theorem plan_82 : plan_scale_factor 82 82 = some (F32.fin 1) := by decide!

theorem scaled_82 : scaled_dim 82 (F32.fin 1) = some 82 := by decide!

theorem plan_thin : plan_scale_factor 1 10000 = some (F32.fin (868421 / 1048576)) := by
  decide!

theorem scaled_thin_width : scaled_dim 1 (F32.fin (868421 / 1048576)) = some 0 := by decide!

theorem scaled_thin_height : scaled_dim 10000 (F32.fin (868421 / 1048576)) = some 8281 := by
  decide!

/-- The exact-coordinate reference of the specification and the code can be far apart on a
wide source: the rounded source position selects a different pixel. -/
theorem reference_far_from_code :
    resize_value wide_src 16777216 1 3 1 0 2 0 = some 255 ∧
      reference_value wide_src 16777216 1 3 1 0 2 0 = some 170 := by
  constructor <;> decide!

/-- A target without columns or without rows: `resize_image` returns its state as it is. -/
theorem resize_image_empty (input : Buffer) (st : ResizeState)
    (old_width old_height new_width new_height : Int)
    (h : new_width ≤ 0 ∨ new_height ≤ 0) :
    resize_image input st old_width old_height new_width new_height = some st := by
  unfold resize_image
  rcases h with hw | hh
  · apply forLoop_skip
    intro y s
    unfold resize_row
    rw [Int.toNat_of_nonpos hw]
    rfl
  · rw [Int.toNat_of_nonpos hh]
    rfl

/-- A grid without columns: the encoder writes the header and the terminator only. -/
theorem encode_no_columns (resized : Buffer) (new_height : Int) :
    encode resized 0 new_height = some ("Image Data (RGB):" ++ "\n" ++ "???") := by
  unfold encode
  rw [forLoop_skip]
  · rfl
  · intro y s
    rfl

/-- Lines 113-169 once the planned factor and the target size are known. -/
theorem read_png_file_eq (row_pointers : Buffer) (width height : Int)
    (heap : Nat → Nat → Nat) (f : F32) (nw nh : Nat)
    (hplan : plan_scale_factor width height = some f)
    (hw : scaled_dim width f = some (nw : Int)) (hh : scaled_dim height f = some (nh : Int))
    (h3 : 3 * nw ≤ 2147483647) :
    read_png_file row_pointers width height heap
      = (resize_image row_pointers (ResizeState.init ⟨nh, 3 * nw, heap⟩) width height nw nh).bind
          fun st => encode st.output nw nh := by
  unfold read_png_file
  rw [hplan]
  simp only [Option.bind_eq_bind, Option.some_bind, hw, hh]
  rw [if_neg (by omega), wrapInt_eq (by omega) (by omega)]
  have e : ((nw : Int) * 3).toNat = 3 * nw := by omega
  rw [e, Int.toNat_ofNat]
  rfl

/-- The pipeline's resize and encode steps on an all-white source at scale `1.0`. -/
theorem resize_white (W H : Nat) (hW : W ≤ 16777216) (hH : H ≤ 16777216)
    (heap : Nat → Nat → Nat) :
    ∃ st, resize_image (white W H) (ResizeState.init ⟨H, 3 * W, heap⟩) W H W H = some st ∧
      encode st.output W H = some (encode_spec (fun _ _ _ => 255) W H) := by
  have hv : ∀ y x c : Nat, y < H → x < W → c < 3 →
      resize_value (white W H) (W : Int) (H : Int) (W : Int) (H : Int) y x c = some 255 := by
    intro y x c hy hx hc
    exact resize_value_same (white W H) W H (by omega) (by omega) rfl rfl
      (fun _ _ => le_rfl) y x c hy hx hc
  obtain ⟨st, hst, hrows, hbytes, hdata⟩ := resize_image_spec (white W H) (W : Int)
    (H : Int) W H (fun _ _ _ => 255) (ResizeState.init ⟨H, 3 * W, heap⟩)
    (le_refl H) (le_refl (3 * W)) (by omega) hv
  have hr : st.output.rows = H := hrows
  have hb : st.output.rowBytes = 3 * W := hbytes
  have henc := encode_eq_spec st.output W H (by omega) (by omega) (by omega) (by omega)
  rw [encode_spec_congr _ (fun _ _ _ => 255) W H hdata] at henc
  exact ⟨st, hst, henc⟩

theorem scaled_82_nat : scaled_dim 82 (F32.fin 1) = some ((82 : Nat) : Int) := by decide!

/-- C1 (code defect): the 82 by 82 all-white image is not scaled down (the planned factor is
`1.0`), and the text the pipeline writes for it has 193376 characters, more than
`MAX_OUTPUT_CHARS`. -/
theorem output_exceeds_budget (heap : Nat → Nat → Nat) :
    ∃ s, read_png_file (white 82 82) 82 82 heap = some s ∧ s.length = 193376 ∧
      MAX_OUTPUT_CHARS < 193376 := by
  obtain ⟨st, hst, henc⟩ := resize_white 82 82 (by norm_num) (by norm_num) heap
  refine ⟨encode_spec (fun _ _ _ => 255) 82 82, ?_, encode_spec_white_length, by decide⟩
  have h := read_png_file_eq (white 82 82) 82 82 heap (F32.fin 1) 82 82 plan_82
    scaled_82_nat scaled_82_nat (by norm_num)
  simp only [Nat.cast_ofNat] at h hst henc
  rw [h, hst]
  exact henc

theorem sample_grid_bytes : ∀ y i, sample_grid.data y i ≤ 255 := by
  intro y i
  show (10 * y + i) % 256 ≤ 255
  omega

theorem gray_row_bytes (levels : List Nat) : ∀ y i, (gray_row levels).data y i ≤ 255 := by
  intro y i
  exact min_le_right _ _

theorem wide_row_value :
    resize_value wide_row ((16777218 : Nat) : Int) ((1 : Nat) : Int) ((16777218 : Nat) : Int)
      ((1 : Nat) : Int) ((0 : Nat) : Int) ((16777217 : Nat) : Int) ((0 : Nat) : Int) = some 0 := by
  decide!

theorem wide_row_source : wide_row.get ((0 : Nat) : Int) ((50331651 : Nat) : Int) = some 255 := by
  decide!

/-- C2 (as amended): for a well-formed source of at most 16777217 by 16777217 pixels,
`resize_image` with the target size equal to the source size finishes and every byte of the
output equals the source byte. -/
theorem identity_scale (input : Buffer) (st0 : ResizeState) (W H : Nat)
    (hW : W ≤ 16777217) (hH : H ≤ 16777217)
    (hrows : input.rows = H) (hbytes : input.rowBytes = 3 * W)
    (hbyte : ∀ y i, input.data y i ≤ 255)
    (hout : st0.output.rows = H) (hout' : st0.output.rowBytes = 3 * W) :
    ∃ st, resize_image input st0 (W : Int) (H : Int) (W : Int) (H : Int) = some st ∧
      ∀ y i : Nat, y < H → i < 3 * W →
        st.output.get (y : Int) (i : Int) = input.get (y : Int) (i : Int) := by
  obtain ⟨st, hst, hr, hb, hdata⟩ := resize_image_spec input (W : Int) (H : Int) W H
    (fun y x c => input.data y (3 * x + c)) st0 (by omega) (by omega) (by omega)
    (fun y x c hy hx hc => resize_value_same input W H hW hH hrows hbytes hbyte y x c hy hx hc)
  refine ⟨st, hst, ?_⟩
  intro y i hy hi
  rw [Buffer.get_natCast st.output (by omega) (by omega),
    Buffer.get_natCast input (by omega) (by omega)]
  have := hdata y (i / 3) (i % 3) hy (by omega) (by omega)
  have hi3 : 3 * (i / 3) + i % 3 = i := by omega
  rw [hi3] at this
  rw [this]

/-- C2 (witness): the 2 by 2 sample grid, resized into fresh 2 by 2 rows. -/
theorem identity_scale_witness :
    ∃ st, resize_image sample_grid (ResizeState.init (white 2 2)) ((2 : Nat) : Int)
        ((2 : Nat) : Int) ((2 : Nat) : Int) ((2 : Nat) : Int) = some st ∧
      ∀ y i : Nat, y < 2 → i < 3 * 2 →
        st.output.get (y : Int) (i : Int) = sample_grid.get (y : Int) (i : Int) :=
  identity_scale sample_grid (ResizeState.init (white 2 2)) 2 2 (by decide) (by decide) rfl rfl
    sample_grid_bytes rfl rfl

/-- C2 (counterexample): on a well-formed one-row source of 16777218 pixels whose last pixel
is white and whose other pixels are black, `resize_image` with the target size equal to the
source size cannot return an output equal to the source: the byte it stores for the last
pixel is the black one of the pixel before. -/
theorem identity_scale_fails_wide :
    wide_row.rows = 1 ∧ wide_row.rowBytes = 3 * 16777218 ∧
    (∀ y i, wide_row.data y i ≤ 255) ∧
    ¬ ∃ st, resize_image wide_row (ResizeState.init (white 16777218 1)) ((16777218 : Nat) : Int)
        ((1 : Nat) : Int) ((16777218 : Nat) : Int) ((1 : Nat) : Int) = some st ∧
      ∀ y i : Nat, y < 1 → i < 3 * 16777218 →
        st.output.get (y : Int) (i : Int) = wide_row.get (y : Int) (i : Int) := by
  refine ⟨rfl, rfl, ?_, ?_⟩
  · intro y i
    show (if i / 3 = 16777217 then 255 else 0) ≤ 255
    split_ifs <;> omega
  · rintro ⟨st, hrun, heq⟩
    have hpost := resize_image_post wide_row ((16777218 : Nat) : Int) ((1 : Nat) : Int)
      16777218 1 _ st (by norm_num) hrun 0 16777217 0 (by norm_num) (by norm_num) (by norm_num)
    rw [wide_row_value] at hpost
    have hcell := heq 0 50331651 (by norm_num) (by norm_num)
    rw [wide_row_source] at hcell
    unfold Buffer.get at hcell
    split_ifs at hcell with hc
    · simp only [Int.toNat_ofNat, Option.some.injEq] at hcell
      have h0 : st.output.data 0 (3 * 16777217 + 0) = 0 := by
        have := Option.some.inj hpost
        exact this.symm
      norm_num at h0
      omega

/-- The four reads of lines 26-27 on the bounded domain are inside the source rows. -/
theorem neighbours_bounded (input : Buffer) (W H W' H' : Nat) (hW : 0 < W)
    (hWb : W ≤ 16777216) (hH : 0 < H) (hHb : H ≤ 16777216) (hW' : W' ≤ 8388608)
    (hH' : H' ≤ 8388608) (hrows : input.rows = H) (hbytes : input.rowBytes = 3 * W)
    (y x c : Nat) (hy : y < H') (hx : x < W') (hc : c < 3) :
    ∃ x0 x1 y0 y1 : Nat,
      sample_indices x W W' = some ((x0 : Int), (x1 : Int)) ∧
      sample_indices y H H' = some ((y0 : Int), (y1 : Int)) ∧
      x0 ≤ x1 ∧ x1 ≤ W - 1 ∧ y0 ≤ y1 ∧ y1 ≤ H - 1 ∧
      (x0 = W - 1 → x1 = x0) ∧ (y0 = H - 1 → y1 = y0) ∧
      neighbours input W H W' H' y x c = some (input.data y0 (3 * x0 + c),
        input.data y0 (3 * x1 + c), input.data y1 (3 * x0 + c), input.data y1 (3 * x1 + c)) := by
  obtain ⟨x0, x1, wx, hxi, hx01, hx1, hxe, _, _, _⟩ := sample_bounded_nat hW hWb hW' hx
  obtain ⟨y0, y1, wy, hyi, hy01, hy1, hye, _, _, _⟩ := sample_bounded_nat hH hHb hH' hy
  refine ⟨x0, x1, y0, y1, hxi, hyi, hx01, by omega, hy01, by omega, by omega, by omega, ?_⟩
  unfold neighbours
  rw [hxi, hyi]
  simp only [Option.bind_eq_bind, Option.some_bind]
  rw [offset_eq (x := x0) (c := c) (by omega), offset_eq (x := x1) (c := c) (by omega),
    Buffer.get_natCast input (by omega) (by omega),
    Buffer.get_natCast input (by omega) (by omega),
    Buffer.get_natCast input (by omega) (by omega),
    Buffer.get_natCast input (by omega) (by omega)]
  simp only [Option.some_bind]

/-- C3 (as amended): for source dimensions from 1 to 16777216 and target dimensions from 1 to
8388608, the sample indices `resize_image` computes for an output pixel satisfy
`0 ≤ x0 ≤ x1 ≤ W - 1` and `0 ≤ y0 ≤ y1 ≤ H - 1`, the clamped neighbour equals the index at
the last column or row, and the four reads of a well-formed source are inside its rows. -/
theorem edge_clamping (W H W' H' x y : Nat) (hW : 0 < W) (hWb : W ≤ 16777216) (hH : 0 < H)
    (hHb : H ≤ 16777216) (hW' : W' ≤ 8388608) (hH' : H' ≤ 8388608) (hx : x < W')
    (hy : y < H') :
    ∃ x0 x1 y0 y1 : Nat,
      sample_indices x W W' = some ((x0 : Int), (x1 : Int)) ∧
      sample_indices y H H' = some ((y0 : Int), (y1 : Int)) ∧
      x0 ≤ x1 ∧ x1 ≤ W - 1 ∧ y0 ≤ y1 ∧ y1 ≤ H - 1 ∧
      (x0 = W - 1 → x1 = x0) ∧ (y0 = H - 1 → y1 = y0) ∧
      ∀ input : Buffer, input.rows = H → input.rowBytes = 3 * W → ∀ c : Nat, c < 3 →
        (neighbours input W H W' H' y x c).isSome = true := by
  obtain ⟨x0, x1, y0, y1, h1, h2, h3, h4, h5, h6, h7, h8, _⟩ :=
    neighbours_bounded (white W H) W H W' H' hW hWb hH hHb hW' hH' rfl rfl y x 0 hy hx
      (by norm_num)
  refine ⟨x0, x1, y0, y1, h1, h2, h3, h4, h5, h6, h7, h8, ?_⟩
  intro input hrows hbytes c hc
  obtain ⟨_, _, _, _, _, _, _, _, _, _, _, _, h9⟩ :=
    neighbours_bounded input W H W' H' hW hWb hH hHb hW' hH' hrows hbytes y x c hy hx hc
  rw [h9]
  rfl

/-- C3 (witness): a 4 by 2 source, a 3 by 2 target, the last pixel of the last row. -/
theorem edge_clamping_witness :
    ∃ x0 x1 y0 y1 : Nat,
      sample_indices ((2 : Nat) : Int) ((4 : Nat) : Int) ((3 : Nat) : Int)
        = some ((x0 : Int), (x1 : Int)) ∧
      sample_indices ((1 : Nat) : Int) ((2 : Nat) : Int) ((2 : Nat) : Int)
        = some ((y0 : Int), (y1 : Int)) ∧
      x0 ≤ x1 ∧ x1 ≤ 4 - 1 ∧ y0 ≤ y1 ∧ y1 ≤ 2 - 1 ∧
      (x0 = 4 - 1 → x1 = x0) ∧ (y0 = 2 - 1 → y1 = y0) ∧
      ∀ input : Buffer, input.rows = 2 → input.rowBytes = 3 * 4 → ∀ c : Nat, c < 3 →
        (neighbours input ((4 : Nat) : Int) ((2 : Nat) : Int) ((3 : Nat) : Int)
          ((2 : Nat) : Int) ((1 : Nat) : Int) ((2 : Nat) : Int) (c : Int)).isSome = true :=
  edge_clamping 4 2 3 2 2 1 (by decide) (by decide) (by decide) (by decide) (by decide)
    (by decide) (by decide) (by decide)

/-- C3 (counterexample): a source one pixel wide and a target 16777217 pixels wide.  For the
output pixel `x = 16777216` the computed index is `x0 = 1`, beyond the last column
`W - 1 = 0`, the clamped neighbour `x1 = 0` is below `x0`, and the reads at `x0` fall
outside the source row. -/
theorem edge_clamping_fails_wide :
    sample_indices 16777216 1 16777217 = some (1, 0) ∧
      neighbours (white 1 1) 1 1 16777217 1 0 16777216 0 = none := by
  constructor <;> decide!

theorem encode_spec_two (px : Nat → Nat → Nat → Nat) : encode_spec px 2 2 =
    "Image Data (RGB):" ++ "\n" ++
      ("14,0,0," ++ toString 1 ++ "," ++ toString 0 ++ "," ++ toString (px 0 0 0) ++ "+"
        ++ toString (px 0 0 1) ++ "+" ++ toString (px 0 0 2) ++ "+2+0") ++ ";" ++
      ("14,0,0," ++ toString 1 ++ "," ++ toString 1 ++ "," ++ toString (px 0 1 0) ++ "+"
        ++ toString (px 0 1 1) ++ "+" ++ toString (px 0 1 2) ++ "+2+0") ++ ";" ++
      ("14,0,0," ++ toString 0 ++ "," ++ toString 0 ++ "," ++ toString (px 1 0 0) ++ "+"
        ++ toString (px 1 0 1) ++ "+" ++ toString (px 1 0 2) ++ "+2+0") ++ ";" ++
      ("14,0,0," ++ toString 0 ++ "," ++ toString 1 ++ "," ++ toString (px 1 1 0) ++ "+"
        ++ toString (px 1 1 1) ++ "+" ++ toString (px 1 1 2) ++ "+2+0") ++ "???" := by
  rfl

/-- C4: for a resampled grid of `h` rows of `3 * w` bytes (the sizes are `int` values), the
text lines 155-169 write is the header line, the records `14,0,0,<h-1-y>,<x>,<R>+<G>+<B>+2+0`
in the order `y = 0..h-1`, `x = 0..w-1` joined by single `;`, and the terminator `???`; for a
2 by 2 grid the records of grid row 0 carry row index 1 and those of grid row 1 row index 0. -/
theorem encoding_format (resized : Buffer) (w h : Nat) (hw : 1 ≤ w) (hh : 1 ≤ h)
    (hrows : resized.rows = h) (hbytes : resized.rowBytes = 3 * w)
    (hw' : 3 * w ≤ 2147483647) (hh' : h ≤ 2147483647) :
    encode resized w h = some (encode_spec (fun y x c => resized.data y (3 * x + c)) w h) ∧
    (String.intercalate ";" (recordsUpTo (fun y x c => resized.data y (3 * x + c)) w h h)).length
        + 1 = ((recordsUpTo (fun y x c => resized.data y (3 * x + c)) w h h).map
          String.length).sum + w * h ∧
    (w = 2 → h = 2 → encode resized w h = some (
      "Image Data (RGB):" ++ "\n" ++
      ("14,0,0," ++ toString 1 ++ "," ++ toString 0 ++ "," ++ toString (resized.data 0 0)
        ++ "+" ++ toString (resized.data 0 1) ++ "+" ++ toString (resized.data 0 2) ++ "+2+0")
      ++ ";" ++
      ("14,0,0," ++ toString 1 ++ "," ++ toString 1 ++ "," ++ toString (resized.data 0 3)
        ++ "+" ++ toString (resized.data 0 4) ++ "+" ++ toString (resized.data 0 5) ++ "+2+0")
      ++ ";" ++
      ("14,0,0," ++ toString 0 ++ "," ++ toString 0 ++ "," ++ toString (resized.data 1 0)
        ++ "+" ++ toString (resized.data 1 1) ++ "+" ++ toString (resized.data 1 2) ++ "+2+0")
      ++ ";" ++
      ("14,0,0," ++ toString 0 ++ "," ++ toString 1 ++ "," ++ toString (resized.data 1 3)
        ++ "+" ++ toString (resized.data 1 4) ++ "+" ++ toString (resized.data 1 5) ++ "+2+0")
      ++ "???")) := by
  have hspec := encode_eq_spec resized w h (by omega) (by omega) hw' hh'
  refine ⟨hspec, ?_, ?_⟩
  · have hne : recordsUpTo (fun y x c => resized.data y (3 * x + c)) w h h ≠ [] := by
      intro hnil
      have hl := recordsUpTo_length (fun y x c => resized.data y (3 * x + c)) w h h
      rw [hnil] at hl
      have : 0 < h * w := Nat.mul_pos (by omega) (by omega)
      simp at hl
      omega
    have h1 := intercalate_length ";" _ hne
    have h3 : ";".length = 1 := by decide
    rw [h3, recordsUpTo_length, one_mul] at h1
    rw [h1, Nat.mul_comm w h]
  · intro h2w h2h
    subst h2w
    subst h2h
    rw [hspec, encode_spec_two]

/-- C4 (witness): the 2 by 2 sample grid. -/
theorem encoding_format_witness :
    encode sample_grid ((2 : Nat) : Int) ((2 : Nat) : Int)
      = some "Image Data (RGB):\n14,0,0,1,0,0+1+2+2+0;14,0,0,1,1,3+4+5+2+0;14,0,0,0,0,10+11+12+2+0;14,0,0,0,1,13+14+15+2+0???" :=
  ((encoding_format sample_grid 2 2 (by decide) (by decide) rfl rfl (by decide)
    (by decide)).2.2 rfl rfl).trans (by decide!)

/-- C7: with `new_width <= 0` or `new_height <= 0`, `resize_image` returns without failing
and leaves its state as it was: the output rows are unchanged and no division, no read of the
source and no write has been counted. -/
theorem zero_size_target (input : Buffer) (st : ResizeState)
    (old_width old_height new_width new_height : Int)
    (h : new_width ≤ 0 ∨ new_height ≤ 0) :
    resize_image input st old_width old_height new_width new_height = some st :=
  resize_image_empty input st old_width old_height new_width new_height h

/-- C7 (witness): the 2 by 2 sample grid and a target of width 0 and height 5. -/
theorem zero_size_target_witness :
    resize_image sample_grid (ResizeState.init (white 0 5)) 2 2 0 5
      = some (ResizeState.init (white 0 5)) :=
  zero_size_target sample_grid (ResizeState.init (white 0 5)) 2 2 0 5 (Or.inl (by decide))

/-- C10: for the source of width 1 and height 10000 the planned factor is below `1.0`, the
target width is 0 (the target height is 8281), and the pipeline writes the header and the
terminator with no record. -/
theorem degenerate_target_exists :
    plan_scale_factor 1 10000 = some (F32.fin (868421 / 1048576)) ∧
      (868421 / 1048576 : ℚ) < 1 ∧
      scaled_dim 1 (F32.fin (868421 / 1048576)) = some 0 ∧
      scaled_dim 10000 (F32.fin (868421 / 1048576)) = some 8281 ∧
      ∀ (row_pointers : Buffer) (heap : Nat → Nat → Nat),
        read_png_file row_pointers 1 10000 heap
          = some ("Image Data (RGB):" ++ "\n" ++ "???") := by
  refine ⟨plan_thin, by norm_num, scaled_thin_width, scaled_thin_height, ?_⟩
  intro row_pointers heap
  have hw : scaled_dim 1 (F32.fin (868421 / 1048576)) = some ((0 : Nat) : Int) :=
    scaled_thin_width
  have hh : scaled_dim 10000 (F32.fin (868421 / 1048576)) = some ((8281 : Nat) : Int) :=
    scaled_thin_height
  rw [read_png_file_eq row_pointers 1 10000 heap _ 0 8281 plan_thin hw hh (by norm_num),
    resize_image_empty row_pointers _ 1 10000 ((0 : Nat) : Int) ((8281 : Nat) : Int)
      (Or.inl (by norm_num))]
  simp only [Option.some_bind, Nat.cast_zero]
  exact encode_no_columns _ _

theorem clamped_1000 : clamped_scale_factor 1000 1000 = F32.fin (2778947 / 33554432) := by
  decide!

theorem scaled_1000 : scaled_dim 1000 (F32.fin (2778947 / 33554432)) = some 82 := by decide!

theorem estimate_1000 :
    estimate_output_size 1000 1000 (F32.fin (2778947 / 33554432)) = some 168100 := by decide!

/-- Where the `int` product `width * height` does not overflow (positive width and height,
at most `2 ^ 31 - 1` pixels), the scale factor the pipeline uses is a finite float greater
than 0 and at most `1.0`, and the target dimensions are defined, not negative, and not above
the source dimensions. -/
theorem scale_factor_range (W H : Int) (hW : 0 < W) (hH : 0 < H) (hWH : W * H ≤ 2147483647) :
    ∃ (f : ℚ) (nw nh : Int), plan_scale_factor W H = some (F32.fin f) ∧ 0 < f ∧ f ≤ 1 ∧
      scaled_dim W (F32.fin f) = some nw ∧ scaled_dim H (F32.fin f) = some nh ∧
      0 ≤ nw ∧ nw ≤ W ∧ 0 ≤ nh ∧ nh ≤ H := by
  obtain ⟨f, nw, nh, _, h2, h3, h4, h5, h6, h7, h8, h9, _, _, h12⟩ := plan_spec hW hH hWH
  exact ⟨f, nw, nh, h12, h2, h3, h4, h5, h6, h7, h8, h9⟩

/-- C5 (code defect): for the 46341 by 46341 source the `int` product `width * height` of
line 40 exceeds `2 ^ 31 - 1` and wraps to a negative value; the closed-form factor is NaN,
the clamp of lines 116-119 leaves it NaN, so the factor is neither greater than 0 nor at
most `1.0`, and the pipeline has no target size (the conversion of line 45 is undefined). -/
theorem scale_factor_nan_large :
    wrapInt (46341 * 46341) = -2147479015 ∧
      calculate_max_scale_factor 46341 46341 = F32.nan ∧
      clamped_scale_factor 46341 46341 = F32.nan ∧
      plan_scale_factor 46341 46341 = none := by
  refine ⟨by decide, ?_, ?_, ?_⟩ <;> decide!

/-- Where the `int` product `width * height` does not overflow (positive width and height,
at most `2 ^ 31 - 1` pixels), the closed-form factor clamped to `1.0` already gives target
dimensions `nw`, `nh` with `nw * nh * 25 <= 190000`, this product is the value
`estimate_output_size` returns at the check, and the corrective pass leaves the factor as it
is; for the 1000 by 1000 source the target is 82 by 82 and the estimate is 168100. -/
theorem estimate_within_budget (W H : Int) (hW : 0 < W) (hH : 0 < H)
    (hWH : W * H ≤ 2147483647) :
    (∃ nw nh : Int, scaled_dim W (clamped_scale_factor W H) = some nw ∧
      scaled_dim H (clamped_scale_factor W H) = some nh ∧ 0 ≤ nw ∧ 0 ≤ nh ∧
      nw * nh * 25 ≤ MAX_OUTPUT_CHARS ∧
      estimate_output_size W H (clamped_scale_factor W H) = some (nw * nh * 25) ∧
      plan_scale_factor W H = some (clamped_scale_factor W H)) ∧
    scaled_dim 1000 (clamped_scale_factor 1000 1000) = some 82 ∧
    estimate_output_size 1000 1000 (clamped_scale_factor 1000 1000) = some 168100 := by
  obtain ⟨f, nw, nh, h1, _, _, h4, h5, h6, _, h8, _, h10, h11, h12⟩ := plan_spec hW hH hWH
  refine ⟨⟨nw, nh, ?_, ?_, h6, h8, ?_, ?_, ?_⟩, ?_, ?_⟩
  · rw [h1]; exact h4
  · rw [h1]; exact h5
  · unfold MAX_OUTPUT_CHARS; omega
  · rw [h1]; exact h11
  · rw [h1]; exact h12
  · rw [clamped_1000]; exact scaled_1000
  · rw [clamped_1000]; exact estimate_1000

/-- C6 (code defect): for the 65536 by 65536 source the `int` product `width * height` of
line 40 wraps to 0, the closed-form factor is `+inf` and is clamped to `1.0`, the target is
65536 by 65536, and `65536 * 65536 * 25` is far above 190000, although
`estimate_output_size` returns 0 (the `int` product of line 47 wraps too), so the corrective
pass does not run and the factor stays `1.0`. -/
theorem estimate_wraps_large :
    calculate_max_scale_factor 65536 65536 = F32.inf false ∧
      clamped_scale_factor 65536 65536 = F32.fin 1 ∧
      scaled_dim 65536 (F32.fin 1) = some 65536 ∧
      ¬ ((65536 : Int) * 65536 * 25 ≤ MAX_OUTPUT_CHARS) ∧
      estimate_output_size 65536 65536 (F32.fin 1) = some 0 ∧
      plan_scale_factor 65536 65536 = some (F32.fin 1) := by
  refine ⟨?_, ?_, ?_, by decide, ?_, ?_⟩ <;> decide!

/-- C8 (as amended): for source dimensions from 1 to 16777216, target dimensions up to
8388608 and a well-formed source, the byte `resize_image` stores for a channel of an output
pixel differs by at most 1 from the reference value taken at the binary32 source
coordinates: with `srcX = x * (W / W')` and `srcY = y * (H / H')` computed in binary32, and
then exactly `x0 = floor(srcX)`, `y0 = floor(srcY)`, `x1 = min(x0 + 1, W - 1)`,
`y1 = min(y0 + 1, H - 1)`, `wx = srcX - x0`, `wy = srcY - y0`, the truncation of
`(1-wx)(1-wy)*S(x0,y0) + wx(1-wy)*S(x1,y0) + (1-wx)wy*S(x0,y1) + wx*wy*S(x1,y1)`. -/
theorem bilinear_reference (input : Buffer) (W H W' H' : Nat) (hW : 0 < W)
    (hWb : W ≤ 16777216) (hH : 0 < H) (hHb : H ≤ 16777216) (hW' : W' ≤ 8388608)
    (hH' : H' ≤ 8388608) (hrows : input.rows = H) (hbytes : input.rowBytes = 3 * W)
    (hbyte : ∀ y i, input.data y i ≤ 255) (y x c : Nat) (hy : y < H') (hx : x < W')
    (hc : c < 3) :
    ∃ (k : Nat) (r : Int), resize_value input W H W' H' y x c = some k ∧
      reference_value_f32 input W H W' H' y x c = some r ∧
      (k : Int) ≤ r + 1 ∧ r ≤ (k : Int) + 1 := by
  obtain ⟨x0, x1, y0, y1, wx, wy, v, _, _, _, _, _, _, _, _, _, _, href, _, _, _, _, hv0, hv1,
    hv2, hval, _⟩ := resize_pixel_spec input W H W' H' hW hWb hH hHb hW' hH' hrows hbytes
      hbyte y x c hy hx hc
  refine ⟨⌊v⌋.toNat, _, hval, href, ?_, ?_⟩
  · rw [Int.toNat_of_nonneg (Int.floor_nonneg.mpr hv0), ← Int.floor_add_one]
    exact Int.floor_mono (by linarith)
  · rw [Int.toNat_of_nonneg (Int.floor_nonneg.mpr hv0), ← Int.floor_add_one]
    exact Int.floor_mono (by linarith)

/-- C8 (witness): the one-row gray source `0, 255, 3, 2` resized to three pixels, pixel 1. -/
theorem bilinear_reference_witness :
    ∃ (k : Nat) (r : Int),
      resize_value (gray_row [0, 255, 3, 2]) ((4 : Nat) : Int) ((1 : Nat) : Int)
        ((3 : Nat) : Int) ((1 : Nat) : Int) ((0 : Nat) : Int) ((1 : Nat) : Int)
        ((0 : Nat) : Int) = some k ∧
      reference_value_f32 (gray_row [0, 255, 3, 2]) ((4 : Nat) : Int) ((1 : Nat) : Int)
        ((3 : Nat) : Int) ((1 : Nat) : Int) ((0 : Nat) : Int) ((1 : Nat) : Int)
        ((0 : Nat) : Int) = some r ∧
      (k : Int) ≤ r + 1 ∧ r ≤ (k : Int) + 1 :=
  bilinear_reference (gray_row [0, 255, 3, 2]) 4 1 3 1 (by decide) (by decide) (by decide)
    (by decide) (by decide) (by decide) rfl rfl (gray_row_bytes _) 0 1 0 (by decide)
    (by decide) (by decide)

/-- C8 (counterexample): the one-row gray source `0, 255, 3, 2` resized to three pixels.  For
output pixel 1 the reference formula gives `(2/3) * 255 + (1/3) * 3 = 171`, and
`resize_image` stores 170. -/
theorem bilinear_reference_fails :
    (gray_row [0, 255, 3, 2]).rows = 1 ∧ (gray_row [0, 255, 3, 2]).rowBytes = 3 * 4 ∧
      resize_value (gray_row [0, 255, 3, 2]) 4 1 3 1 0 1 0 = some 170 ∧
      reference_value (gray_row [0, 255, 3, 2]) 4 1 3 1 0 1 0 = some 171 := by
  refine ⟨rfl, rfl, ?_, ?_⟩ <;> decide!

end Png2Cm
